import Mathlib

/-!
Shallow embedding of the résumé-parsing code base
(`profile-only-parser.js`: the `ProfileOnlyParser` browser-extension module,
the serverless CV-upload handler with its PDF/DOCX text extractors, and the
work-experience focusing helper).

Strings are modelled as Lean `String`/`List Char`; JavaScript values as the
`JVal` inductive; code that can throw is modelled with `Except String`.
JavaScript regular-expression replaces are modelled by specialised scanners
that follow the engine semantics (leftmost match, greedy/lazy quantifiers,
global continuation after each match).  Case conversion is modelled on the
ASCII range, which is the range every string constant of the source uses.
-/

/-- JavaScript whitespace (the `\s` character class and `String.prototype.trim`). -/
def isJsWs (c : Char) : Bool :=
  c = ' ' ∨ c = '\t' ∨ c = '\n' ∨ c = '\r' ∨ c = '\x0b' ∨ c = '\x0c' ∨
  c = '\u00A0' ∨ c = '\u1680' ∨ ('\u2000' ≤ c ∧ c ≤ '\u200A') ∨
  c = '\u2028' ∨ c = '\u2029' ∨ c = '\u202F' ∨ c = '\u205F' ∨
  c = '\u3000' ∨ c = '\uFEFF'

/-- Length of the maximal whitespace prefix (a greedy `\s*`). -/
def wsRun : List Char → Nat
  | [] => 0
  | c :: rest => if isJsWs c then wsRun rest + 1 else 0

/-- `String.prototype.trim` on char lists. -/
def jsTrimL (cs : List Char) : List Char :=
  ((cs.dropWhile isJsWs).reverse.dropWhile isJsWs).reverse

/-- `String.prototype.trim`. -/
def jsTrim (s : String) : String := ⟨jsTrimL s.data⟩

/-- First index at which `pat` occurs as a contiguous sublist
(JavaScript `String.prototype.indexOf`). -/
def findSubstr (pat : List Char) : List Char → Option Nat
  | [] => if pat = [] then some 0 else none
  | c :: rest =>
      if pat.isPrefixOf (c :: rest) then some 0
      else (findSubstr pat rest).map (· + 1)

/-- `indexOf(pat, from)`. -/
def findSubstrFrom (pat : List Char) (s : List Char) (start : Nat) : Option Nat :=
  (findSubstr pat (s.drop start)).map (· + start)

/-! ## `formatPhone` (profile-only-parser.js, "FORMAT PHONE FOR ATS")

```js
formatPhone(phone) {
  if (!phone) return '';
  let cleaned = phone.replace(/[^\d+]/g, '');
  if (cleaned.startsWith('+')) {
    const match = cleaned.match(/^\+(\d{1,3})(\d+)$/);
    if (match) return `+${match[1]} ${match[2]}`;
  }
  return phone;
}
```
The anchored match `/^\+(\d{1,3})(\d+)$/` succeeds exactly when the cleaned
string is `'+'` followed by `n ≥ 2` digits and nothing else; the greedy
`\d{1,3}` then captures the first `min 3 (n-1)` digits. -/

def isDigitCh (c : Char) : Bool := '0' ≤ c ∧ c ≤ '9'

def formatPhone (phone : String) : String :=
  if phone = "" then ""
  else
    let cleaned := phone.data.filter (fun c => isDigitCh c || c = '+')
    match cleaned with
    | [] => phone
    | c :: rest =>
        if c = '+' then
          if rest.all isDigitCh ∧ 2 ≤ rest.length then
            let k := min 3 (rest.length - 1)
            ⟨'+' :: (rest.take k ++ ' ' :: rest.drop k)⟩
          else phone
        else phone

/-! ## `normalizeDates` (profile-only-parser.js, "NORMALIZE DATES")

```js
normalizeDates(dateStr) {
  if (!dateStr) return '';
  return String(dateStr)
    .replace(DOUBLEHYPHEN global, ENDASH)        -- the regex  --
    .replace(HYPHEN global, ENDASH)              -- the regex  -
    .replace(WSRUN ENDASH WSRUN global, ' – ')   -- the regex  \s*–\s*
}
```
(The regex literals are paraphrased above because the two-character
sequences opening and closing Lean comments occur inside them.)
-/

/-- The global replace of `--` by `–`: left-to-right, non-overlapping. -/
def replaceDoubleDash : List Char → List Char
  | '-' :: '-' :: rest => '–' :: replaceDoubleDash rest
  | c :: rest => c :: replaceDoubleDash rest
  | [] => []

/-- The global replace of every `-` by `–`. -/
def replaceDash (cs : List Char) : List Char :=
  cs.map (fun c => if c = '-' then '–' else c)

/-- One step of `.replace(/\s*–\s*/g, ' – ')`: at the current position the
pattern matches iff the maximal whitespace run is followed by an en dash
(whitespace and `–` are disjoint, so backtracking adds nothing); the match
then also consumes the maximal whitespace run after the dash.  On a failed
attempt the engine advances one character. -/
def spaceDashesGo : Nat → List Char → List Char
  | 0, cs => cs
  | _ + 1, [] => []
  | fuel + 1, c :: rest =>
      match (c :: rest).drop (wsRun (c :: rest)) with
      | '–' :: rest2 => ' ' :: '–' :: ' ' :: spaceDashesGo fuel (rest2.drop (wsRun rest2))
      | _ => c :: spaceDashesGo fuel rest

def spaceDashes (cs : List Char) : List Char := spaceDashesGo cs.length cs

def normalizeDates (s : String) : String :=
  if s = "" then ""
  else ⟨spaceDashes (replaceDash (replaceDoubleDash s.data))⟩

/-! ## Bullet cleaning (profile-only-parser.js, inside `parseProfileExperience`)

```js
bullet.replace(/^[-•*▪▸►]\s*/, '').trim()
```
-/

def bulletMarkers : List Char := ['-', '•', '*', '▪', '▸', '►']

/-- The anchored `replace(/^[-•*▪▸►]\s*/, '')`. -/
def stripBulletMarker (cs : List Char) : List Char :=
  match cs with
  | c :: rest => if c ∈ bulletMarkers then rest.drop (wsRun rest) else cs
  | [] => []

def cleanBullet (s : String) : String := ⟨jsTrimL (stripBulletMarker s.data)⟩

/-! ## `isTextReadable` (CV-upload handler)

```js
const isTextReadable = (text) => {
  if (!text || text.length < 100) return false;
  const readable = text.replace(NOTALLOWED global, '');   -- [^a-zA-Z0-9\s.,;:!?@#$%&*()-]
  const ratio = readable.length / text.length;
  const hasCommonWords = WORDTEST.test(text);  -- \b(experience|education|skills|work|company|university|degree|manager|developer|engineer|analyst)\b, i flag
  return ratio > 0.4 && hasCommonWords;
};
```
The floating comparison `ratio > 0.4` is modelled exactly over rationals as
`5 * readable.length > 2 * text.length`. -/

def isAsciiLetter (c : Char) : Bool := ('a' ≤ c ∧ c ≤ 'z') ∨ ('A' ≤ c ∧ c ≤ 'Z')

def isWordChar (c : Char) : Bool := isAsciiLetter c || isDigitCh c || c = '_'

def readableChar (c : Char) : Bool :=
  isAsciiLetter c || isDigitCh c || isJsWs c ||
  c ∈ ['.', ',', ';', ':', '!', '?', '@', '#', '$', '%', '&', '*', '(', ')', '-']

/-- ASCII-case-insensitive prefix test (the `i` flag on the ASCII words used
by the source). -/
def ciPrefix : List Char → List Char → Bool
  | [], _ => true
  | _ :: _, [] => false
  | p :: ps, c :: cs => p.toLower = c.toLower && ciPrefix ps cs

def commonCvWords : List (List Char) :=
  ["experience", "education", "skills", "work", "company", "university",
   "degree", "manager", "developer", "engineer", "analyst"].map String.data

/-- Does one of `words` match at the current position with `\b` on both
sides?  (`prev` is the character just before the position.)  All listed words
start and end with a letter, so the boundaries reduce to the neighbours not
being word characters. -/
def wordAtBoundary (words : List (List Char)) (prev : Option Char) (cs : List Char) : Bool :=
  words.any fun w =>
    ciPrefix w cs &&
    (match prev with | none => true | some c => !isWordChar c) &&
    (match (cs.drop w.length).head? with | none => true | some c => !isWordChar c)

def hasWordGo (words : List (List Char)) : Option Char → List Char → Bool
  | _, [] => false
  | prev, c :: rest =>
      wordAtBoundary words prev (c :: rest) || hasWordGo words (some c) rest

def hasCommonWords (s : String) : Bool := hasWordGo commonCvWords none s.data

def isTextReadable (text : String) : Bool :=
  if text = "" ∨ text.length < 100 then false
  else
    let readable := text.data.filter readableChar
    decide (5 * readable.length > 2 * text.length) && hasCommonWords text

/-! ## `getWorkExperienceFocusedText` (CV-upload handler) -/

def startMarkers : List (List Char) :=
  ["WORK EXPERIENCE", "PROFESSIONAL EXPERIENCE", "EXPERIENCE",
   "EMPLOYMENT HISTORY"].map String.data

def endMarkers : List (List Char) :=
  ["EDUCATION", "CERTIFICATIONS", "SKILLS", "PROJECTS", "LANGUAGES",
   "ACHIEVEMENTS", "INTERESTS"].map String.data

/-- The `for (const m of startMarkers) { ... break; }` loop: the first marker
in list order that occurs anywhere wins. -/
def firstMarkerIdx : List (List Char) → List Char → Option Nat
  | [], _ => none
  | m :: ms, up =>
      match findSubstr m up with
      | some i => some i
      | none => firstMarkerIdx ms up

/-- The `for (const m of endMarkers) { if (idx !== -1 && idx < end) end = idx }`
loop, starting from `end = upper.length`. -/
def minEndIdx (ms : List (List Char)) (up : List Char) (start : Nat) : Nat :=
  ms.foldl
    (fun e m =>
      match findSubstrFrom m up start with
      | some i => if i < e then i else e
      | none => e)
    up.length

def getWorkExperienceFocusedText (fullText : String) : String :=
  let text := fullText.data
  let upper := text.map Char.toUpper
  match firstMarkerIdx startMarkers upper with
  | none => ⟨text.take 20000⟩
  | some start =>
      let e := minEndIdx endMarkers upper (start + 20)
      let sect := (text.take e).drop start
      if sect.length > 25000 then ⟨sect.take 25000⟩ else ⟨sect⟩

/-! ## `cleanLocation` (profile-only-parser.js, "CLEAN LOCATION")

The function chains six global replaces and a trim:
1. word-bounded, case-insensitive removal of `remote`, `work from home`,
   `wfh`, `virtual`, `fully remote` (alternatives tried in this order);
2. case-insensitive removal of `WSRUN [([]? WSRUN (remote|wfh|virtual)
   WSRUN [)\]]? WSRUN` (no word boundaries);
3. `WSRUN sep WSRUN sep WSRUN` with sep one of `| , ⁄ – -` replaced by
   `" | "`;
4. a trailing `WSRUN sep WSRUN` before the end removed;
5. a leading `WSRUN sep WSRUN` removed;
6. whitespace runs of length at least two collapsed to one space;
then `.trim()`.  All scanners below follow the engine semantics: a failed
attempt advances one character, a match resumes after the consumed text, and
boundary lookarounds inspect the original string. -/

def locWords1 : List (List Char) :=
  ["remote", "work from home", "wfh", "virtual", "fully remote"].map String.data

def locWords2 : List (List Char) := ["remote", "wfh", "virtual"].map String.data

/-- Word-boundary alternation match at the current position: the first
alternative (in order) that matches case-insensitively with non-word (or
absent) neighbours on both sides.  Every alternative starts and ends with a
letter, so `\b` reduces to the neighbour test.  Returns the matched length. -/
def matchWordAlt (alts : List (List Char)) (prev : Option Char) (cs : List Char) : Option Nat :=
  alts.findSome? fun w =>
    if ciPrefix w cs &&
       (match prev with | none => true | some c => !isWordChar c) &&
       (match (cs.drop w.length).head? with | none => true | some c => !isWordChar c)
    then some w.length else none

def locStage1Go : Nat → Option Char → List Char → List Char
  | 0, _, cs => cs
  | _ + 1, _, [] => []
  | fuel + 1, prev, c :: rest =>
      match matchWordAlt locWords1 prev (c :: rest) with
      | some n =>
          locStage1Go fuel (((c :: rest).take n).getLast?) ((c :: rest).drop n)
      | none => c :: locStage1Go fuel (some c) rest

def locStage1 (cs : List Char) : List Char := locStage1Go cs.length none cs

/-- Attempt of stage-2's pattern at the current position.  The leading
greedy whitespace, optional opening bracket and second whitespace run are
forced (whitespace, brackets and letters are pairwise disjoint, so the
backtracking alternatives all fail); then one of the three words must match
case-insensitively; the tail (whitespace, optional closing bracket,
whitespace) is greedy and cannot fail. -/
def locStage2Match (cs : List Char) : Option Nat :=
  let w1 := wsRun cs
  let cs1 := cs.drop w1
  let br := match cs1.head? with
            | some '(' => 1 | some '[' => 1 | _ => 0
  let cs2 := cs1.drop br
  let w2 := wsRun cs2
  let cs3 := cs2.drop w2
  match locWords2.findSome? (fun w => if ciPrefix w cs3 then some w.length else none) with
  | none => none
  | some wl =>
      let cs4 := cs3.drop wl
      let w3 := wsRun cs4
      let cs5 := cs4.drop w3
      let cb := match cs5.head? with
                | some ')' => 1 | some ']' => 1 | _ => 0
      let cs6 := cs5.drop cb
      let w4 := wsRun cs6
      some (w1 + br + w2 + wl + w3 + cb + w4)

def locStage2Go : Nat → List Char → List Char
  | 0, cs => cs
  | _ + 1, [] => []
  | fuel + 1, c :: rest =>
      match locStage2Match (c :: rest) with
      | some n => locStage2Go fuel ((c :: rest).drop n)
      | none => c :: locStage2Go fuel rest

def locStage2 (cs : List Char) : List Char := locStage2Go cs.length cs

def locSeps : List Char := ['|', ',', '/', '–', '-']

/-- Attempt of stage-3's pattern `WSRUN sep WSRUN sep WSRUN`. -/
def locStage3Match (cs : List Char) : Option Nat :=
  let w1 := wsRun cs
  match (cs.drop w1).head? with
  | some s1 =>
      if s1 ∈ locSeps then
        let cs2 := cs.drop (w1 + 1)
        let w2 := wsRun cs2
        match (cs2.drop w2).head? with
        | some s2 =>
            if s2 ∈ locSeps then
              let cs3 := cs2.drop (w2 + 1)
              some (w1 + 1 + w2 + 1 + wsRun cs3)
            else none
        | none => none
      else none
  | none => none

def locStage3Go : Nat → List Char → List Char
  | 0, cs => cs
  | _ + 1, [] => []
  | fuel + 1, c :: rest =>
      match locStage3Match (c :: rest) with
      | some n => ' ' :: '|' :: ' ' :: locStage3Go fuel ((c :: rest).drop n)
      | none => c :: locStage3Go fuel rest

def locStage3 (cs : List Char) : List Char := locStage3Go cs.length cs

/-- Stage 4, `WSRUN sep WSRUN` anchored at the end: drop the trailing
whitespace run, one separator before it, and the whitespace run before that
(the leftmost match takes the maximal whitespace before the separator). -/
def locStage4 (cs : List Char) : List Char :=
  let r := cs.reverse
  let r1 := r.drop (wsRun r)
  match r1 with
  | s :: r2 => if s ∈ locSeps then (r2.drop (wsRun r2)).reverse else cs
  | [] => cs

/-- Stage 5, `WSRUN sep WSRUN` anchored at the start. -/
def locStage5 (cs : List Char) : List Char :=
  let cs1 := cs.drop (wsRun cs)
  match cs1 with
  | s :: cs2 => if s ∈ locSeps then cs2.drop (wsRun cs2) else cs
  | [] => cs

/-- Stage 6, whitespace runs of length at least 2 become a single space. -/
def locStage6Go : Nat → List Char → List Char
  | 0, cs => cs
  | _ + 1, [] => []
  | fuel + 1, c :: rest =>
      let w := wsRun (c :: rest)
      if 2 ≤ w then ' ' :: locStage6Go fuel ((c :: rest).drop w)
      else c :: locStage6Go fuel rest

def locStage6 (cs : List Char) : List Char := locStage6Go cs.length cs

def cleanLocation (location : String) : String :=
  if location = "" then ""
  else ⟨jsTrimL (locStage6 (locStage5 (locStage4 (locStage3 (locStage2 (locStage1 location.data))))))⟩

/-! ## JavaScript value model

`JVal` models the JavaScript values the profile pipeline manipulates;
`undefV` and `null` are distinguished, numbers are modelled as integers
(no NaN or float subtleties are exercised by the code under verification). -/

inductive JVal where
  | undefV : JVal
  | null : JVal
  | bool : Bool → JVal
  | num : Int → JVal
  | str : String → JVal
  | arr : List JVal → JVal
  | obj : List (String × JVal) → JVal

/-- JavaScript truthiness. -/
def jsTruthy : JVal → Bool
  | .undefV => false
  | .null => false
  | .bool b => b
  | .num n => decide (n ≠ 0)
  | .str s => decide (s ≠ "")
  | .arr _ => true
  | .obj _ => true

/-- `a || b`. -/
def jsOr (a b : JVal) : JVal := if jsTruthy a then a else b

/-- Optional-chained property access `v?.k` (primitives have none of the
accessed properties, so they yield `undefined`; objects yield the stored
value or `undefined`). -/
def getFieldOpt (v : JVal) (k : String) : JVal :=
  match v with
  | .obj kvs => (kvs.lookup k).getD .undefV
  | _ => .undefV

/-- Plain property access `v.k`: throws a `TypeError` on `null`/`undefined`. -/
def getFieldE (v : JVal) (k : String) : Except String JVal :=
  match v with
  | .undefV => .error ("Cannot read properties of undefined (reading " ++ k ++ ")")
  | .null => .error ("Cannot read properties of null (reading " ++ k ++ ")")
  | _ => .ok (getFieldOpt v k)

mutual

/-- `String(v)` / template-literal stringification.  `Array.prototype.toString`
joins the elements with `,`, stringifying `null`/`undefined` elements as
empty strings. -/
def jsToString : JVal → String
  | .undefV => "undefined"
  | .null => "null"
  | .bool true => "true"
  | .bool false => "false"
  | .num n => toString n
  | .str s => s
  | .obj _ => "[object Object]"
  | .arr xs => jsArrString xs

def jsArrString : List JVal → String
  | [] => ""
  | [x] => jsElemString x
  | x :: y :: xs => jsElemString x ++ "," ++ jsArrString (y :: xs)

def jsElemString : JVal → String
  | .undefV => ""
  | .null => ""
  | v => jsToString v

end

/-- `Array.prototype.join(sep)` (`null`/`undefined` elements join as empty). -/
def jsJoin (sep : String) (xs : List JVal) : String :=
  String.intercalate sep
    (xs.map fun x =>
      match x with
      | .undefV => ""
      | .null => ""
      | y => jsToString y)

/-- `.trim()` called on an arbitrary value: only strings have it. -/
def jsTrimE (v : JVal) : Except String String :=
  match v with
  | .str s => .ok (jsTrim s)
  | _ => .error "trim is not a function"

/-! ## Profile-only parser: data model -/

structure Contact where
  name : String
  email : JVal
  phone : String
  location : String
  linkedin : JVal
  github : JVal
  portfolio : JVal

structure Job where
  company : String
  title : String
  titleLine : String
  dates : String
  location : JVal
  bullets : List String

structure Edu where
  institution : JVal
  degree : JVal
  dates : JVal
  gpa : JVal

structure ResumeData where
  contact : Contact
  summary : JVal
  experience : List Job
  education : List Edu
  skills : String
  certifications : String

structure AtsMetadata where
  parsedAt : String
  parser : String
  source : String
  atsVersion : String

structure EnhancedData where
  contact : Contact
  summary : JVal
  experience : List Job
  education : List Edu
  skills : String
  certifications : String
  metadata : AtsMetadata

/-- Result envelope of `parseFromProfilePage` (`timing` is wall-clock noise
and is not modelled). -/
structure ParseResult where
  success : Bool
  data : Option EnhancedData
  error : Option String
  source : Option String

/-! ## Profile-only parser: field extraction -/

/-- `formatPhone(profile?.phone || '')` receives an arbitrary value: falsy
gives `''`; a truthy non-string throws at `.replace`. -/
def formatPhoneJ (v : JVal) : Except String String :=
  if jsTruthy v then
    match v with
    | .str s => .ok (formatPhone s)
    | _ => .error "phone.replace is not a function"
  else .ok ""

def cleanLocationJ (v : JVal) : Except String String :=
  if jsTruthy v then
    match v with
    | .str s => .ok (cleanLocation s)
    | _ => .error "location.replace is not a function"
  else .ok ""

/-- `extractContactInfo` (throws only through `formatPhone`/`cleanLocation`
when the stored phone or location is a truthy non-string). -/
def extractContactInfo (profile : JVal) : Except String Contact :=
  let firstName := jsOr (getFieldOpt profile "firstName") (jsOr (getFieldOpt profile "first_name") (.str ""))
  let lastName := jsOr (getFieldOpt profile "lastName") (jsOr (getFieldOpt profile "last_name") (.str ""))
  let name := jsTrim (jsToString firstName ++ " " ++ jsToString lastName)
  match formatPhoneJ (jsOr (getFieldOpt profile "phone") (.str "")) with
  | .error e => .error e
  | .ok phone =>
    match cleanLocationJ (jsOr (getFieldOpt profile "city") (jsOr (getFieldOpt profile "location") (.str ""))) with
    | .error e => .error e
    | .ok location =>
        .ok { name := name
              email := jsOr (getFieldOpt profile "email") (.str "")
              phone := phone
              location := location
              linkedin := jsOr (getFieldOpt profile "linkedin") (.str "")
              github := jsOr (getFieldOpt profile "github") (.str "")
              portfolio := jsOr (getFieldOpt profile "portfolio") (.str "") }

def extractSummary (profile : JVal) : JVal :=
  jsOr (getFieldOpt profile "summary")
    (jsOr (getFieldOpt profile "professionalSummary")
      (jsOr (getFieldOpt profile "profile") (.str "")))

/-- `normalizeDates` on an arbitrary value (`if (!dateStr) return ''`, then
`String(dateStr)` and the replace chain). -/
def normalizeDatesJ (v : JVal) : String :=
  if jsTruthy v then normalizeDates (jsToString v) else ""

/-- One job of `parseProfileExperience`'s `forEach` body. -/
def parseJob (job : JVal) : Except String Job :=
  match getFieldE job "company" with
  | .error e => .error e
  | .ok companyV =>
    match jsTrimE (jsOr companyV (jsOr (getFieldOpt job "organization") (.str ""))) with
    | .error e => .error e
    | .ok company =>
      match jsTrimE (jsOr (getFieldOpt job "title")
          (jsOr (getFieldOpt job "position") (jsOr (getFieldOpt job "role") (.str "")))) with
      | .error e => .error e
      | .ok title =>
          let dates0 := jsOr (getFieldOpt job "dates") (jsOr (getFieldOpt job "duration") (.str ""))
          let dates1 :=
            if !jsTruthy dates0 &&
               (jsTruthy (getFieldOpt job "startDate") || jsTruthy (getFieldOpt job "endDate")) then
              let start := jsOr (getFieldOpt job "startDate") (.str "")
              let stop := jsOr (getFieldOpt job "endDate") (.str "Present")
              if jsTruthy start then .str (jsToString start ++ " - " ++ jsToString stop) else stop
            else dates0
          let dates := normalizeDatesJ dates1
          let location := jsOr (getFieldOpt job "location") (.str "")
          let bullets0 := jsOr (getFieldOpt job "bullets")
            (jsOr (getFieldOpt job "achievements")
              (jsOr (getFieldOpt job "responsibilities") (.arr [])))
          let bulletStrs : Except String (List String) :=
            match bullets0 with
            | .str s => .ok ((s.splitOn "\n").filter (fun b => jsTrim b ≠ ""))
            | .arr l => l.mapM (fun b =>
                match b with
                | .str s => .ok s
                | _ => (.error "bullet.replace is not a function" : Except String String))
            | _ => .error "bullets.map is not a function"
          match bulletStrs with
          | .error e => .error e
          | .ok bl =>
              let cleanedBullets := (bl.map cleanBullet).filter (fun b => b.length > 0)
              let titleLine := if dates ≠ "" then title ++ " | " ++ dates else title
              .ok { company := company, title := title, titleLine := titleLine,
                    dates := dates, location := location,
                    bullets := cleanedBullets.map String.data |>.map (fun l => (⟨l⟩ : String)) }

def parseProfileExperience (workExperience : List JVal) : Except String (List Job) :=
  workExperience.mapM parseJob

def extractEducation (profile : JVal) : Except String (List Edu) :=
  match getFieldOpt profile "education" with
  | .arr l =>
      l.mapM fun edu =>
        match getFieldE edu "institution" with
        | .error e => .error e
        | .ok instV =>
            .ok { institution := jsOr instV (jsOr (getFieldOpt edu "school") (jsOr (getFieldOpt edu "university") (.str "")))
                  degree := jsOr (getFieldOpt edu "degree") (.str "")
                  dates := jsOr (getFieldOpt edu "dates") (jsOr (getFieldOpt edu "graduationDate") (.str ""))
                  gpa := jsOr (getFieldOpt edu "gpa") (.str "") }
  | _ => .ok []

def extractSkills (profile : JVal) : String :=
  match jsOr (getFieldOpt profile "skills") (.arr []) with
  | .arr l => jsJoin ", " l
  | .str s => s
  | _ => ""

def extractCertifications (profile : JVal) : String :=
  match jsOr (getFieldOpt profile "certifications") (.arr []) with
  | .arr l => jsJoin ", " l
  | .str s => s
  | _ => ""

/-- The value `profileData?.workExperience || profileData?.work_experience || []`
(source line 60). -/
def weVal (profileData : JVal) : JVal :=
  jsOr (getFieldOpt profileData "workExperience")
    (jsOr (getFieldOpt profileData "work_experience") (.arr []))

/-- The experience computation of `extractTechnicalExperience` (lines 60-65):
`Array.isArray(workExperience) && workExperience.length > 0` guards the only
call of `parseProfileExperience`; otherwise the initial `[]` is kept. -/
def experiencePart (profileData : JVal) : Except String (List Job) :=
  match weVal profileData with
  | .arr l => if l.length > 0 then parseProfileExperience l else .ok []
  | _ => .ok []

/-- `extractTechnicalExperience` (profile-only-parser.js lines 43-77). -/
def extractTechnicalExperience (profileData : JVal) : Except String ResumeData :=
  match extractContactInfo profileData with
  | .error e => .error e
  | .ok contact =>
    let summary := extractSummary profileData
    match experiencePart profileData with
    | .error e => .error e
    | .ok experience =>
      match extractEducation profileData with
      | .error e => .error e
      | .ok education =>
          .ok { contact := contact, summary := summary, experience := experience,
                education := education, skills := extractSkills profileData,
                certifications := extractCertifications profileData }

/-- `enhanceForATS` (`new Date().toISOString()` is passed in as `now`). -/
def enhanceForATS (now : String) (d : ResumeData) : EnhancedData :=
  { contact := d.contact, summary := d.summary, experience := d.experience,
    education := d.education, skills := d.skills,
    certifications := d.certifications,
    metadata := { parsedAt := now, parser := "ProfileOnlyParser",
                  source := "profile_page_only", atsVersion := "1.0.0" } }

/-- `parseFromProfilePage`: the whole body runs inside `try { ... } catch`,
so every internal throw is converted into a `success:false` envelope. -/
def parseFromProfilePage (now : String) (profileData : JVal) : ParseResult :=
  match extractTechnicalExperience profileData with
  | .ok parsedData =>
      { success := true, data := some (enhanceForATS now parsedData),
        error := none, source := some "profile_page_only" }
  | .error e =>
      { success := false, data := none, error := some e, source := none }

/-! ## PDF text extraction (CV-upload handler, `extractTextFromPDF`)

The handler decodes the raw bytes as latin1, collects `BT ... ET` text
blocks (a lazy regex: each block runs from a `BT` to the first following
`ET`, the capture trimmed of surrounding whitespace), extracts `(...) Tj`
and `[...] TJ` show-operators from each block, decodes PDF string escapes,
additionally scans `stream ... endstream` bodies for printable runs, joins
everything, collapses whitespace, inserts a space between a lowercase and
an uppercase letter, and if fewer than 200 characters came out, falls back
to harvesting word-like ASCII tokens from the whole file. -/

def latin1Decode (data : List Nat) : List Char :=
  data.map (fun b => Char.ofNat (b % 256))

def isAsciiLower (c : Char) : Bool := 'a' ≤ c ∧ c ≤ 'z'

def isAsciiUpper (c : Char) : Bool := 'A' ≤ c ∧ c ≤ 'Z'

/-- Left-to-right, non-overlapping global replace of the two-character
pattern `a b` by the single character `c`. -/
def repl2 (a b c : Char) : List Char → List Char
  | x :: y :: rest =>
      if x = a ∧ y = b then c :: repl2 a b c rest
      else x :: repl2 a b c (y :: rest)
  | cs => cs

def isOctalCh (c : Char) : Bool := '0' ≤ c ∧ c ≤ '7'

def octDigit (c : Char) : Nat := c.toNat - '0'.toNat

/-- One escape attempt after a backslash: up to three octal digits are
consumed greedily and decoded; a backslash not followed by an octal digit is
emitted unchanged (the regex attempt fails and the engine moves on).
Returns the emitted characters and the remaining input. -/
def octStep : List Char → List Char × List Char
  | c1 :: c2 :: c3 :: rest3 =>
      if isOctalCh c1 then
        if isOctalCh c2 then
          if isOctalCh c3 then
            ([Char.ofNat (octDigit c1 * 64 + octDigit c2 * 8 + octDigit c3)], rest3)
          else ([Char.ofNat (octDigit c1 * 8 + octDigit c2)], c3 :: rest3)
        else ([Char.ofNat (octDigit c1)], c2 :: c3 :: rest3)
      else (['\\'], c1 :: c2 :: c3 :: rest3)
  | [c1, c2] =>
      if isOctalCh c1 then
        if isOctalCh c2 then ([Char.ofNat (octDigit c1 * 8 + octDigit c2)], [])
        else ([Char.ofNat (octDigit c1)], [c2])
      else (['\\'], [c1, c2])
  | [c1] =>
      if isOctalCh c1 then ([Char.ofNat (octDigit c1)], [])
      else (['\\'], [c1])
  | [] => (['\\'], [])

/-- The global replace of a backslash followed by one to three octal digits
(greedy) by the character with that code.  Each step consumes at least one
character, so `length` is sufficient fuel. -/
def decodeOctalGo : Nat → List Char → List Char
  | 0, cs => cs
  | _ + 1, [] => []
  | fuel + 1, x :: rest =>
      if x = '\\' then (octStep rest).1 ++ decodeOctalGo fuel (octStep rest).2
      else x :: decodeOctalGo fuel rest

def decodeOctal (cs : List Char) : List Char := decodeOctalGo cs.length cs

/-- `decodePDFString`: the source's chain of escape replaces, in order
backslash-n, backslash-r, backslash-t, backslash-paren (both), doubled
backslash, then octal escapes. -/
def decodePDFString (cs : List Char) : List Char :=
  decodeOctal
    (repl2 '\\' '\\' '\\'
      (repl2 '\\' ')' ')'
        (repl2 '\\' '(' '('
          (repl2 '\\' 't' '\t'
            (repl2 '\\' 'r' '\r'
              (repl2 '\\' 'n' '\n' cs))))))

/-- The `BT`-to-`ET` block scanner.  A match starts at the first `BT`, runs
to the first following `ET` (the lazy body), and the capture is the text in
between trimmed of whitespace on both sides (the leading greedy run and the
trailing lazy run).  If a `BT` has no following `ET`, no later `BT` has one
either, so scanning ends.  Each step consumes at least four characters, so
`length` is sufficient fuel. -/
def findBlocksGo : Nat → List Char → List (List Char)
  | 0, _ => []
  | fuel + 1, s =>
      match findSubstr ['B', 'T'] s with
      | none => []
      | some b =>
          let afterBT := s.drop (b + 2)
          match findSubstr ['E', 'T'] afterBT with
          | none => []
          | some e =>
              jsTrimL (afterBT.take e) :: findBlocksGo fuel (afterBT.drop (e + 2))

/-- `(...) Tj` captures inside a block.  An attempt anchored at a `(`
succeeds iff the first `)` after it is followed by optional whitespace and
the literal `Tj`; on failure the engine advances one character (matches can
only start at a `(`).  No `)` left means no further match is possible. -/
def tjCapturesGo : Nat → List Char → List (List Char)
  | 0, _ => []
  | fuel + 1, s =>
      match findSubstr ['('] s with
      | none => []
      | some i =>
          let r := s.drop (i + 1)
          match findSubstr [')'] r with
          | none => []
          | some j =>
              let after := r.drop (j + 1)
              let a2 := after.drop (wsRun after)
              if a2.take 2 = ['T', 'j'] then (r.take j) :: tjCapturesGo fuel (a2.drop 2)
              else tjCapturesGo fuel (s.drop (i + 1))

/-- Case-insensitive `TJ` at the head. -/
def isTJat (cs : List Char) : Bool :=
  match cs with
  | a :: b :: _ => (a = 'T' ∨ a = 't') ∧ (b = 'J' ∨ b = 'j')
  | _ => false

/-- For the lazy `[ ... ] TJ` body: the smallest index `j` with `cs[j] = ']'`
followed by optional whitespace and case-insensitive `TJ`; returns that
index together with the index just after the `TJ`. -/
def closeTJGo : Nat → List Char → Option (Nat × Nat)
  | 0, _ => none
  | fuel + 1, r =>
      match findSubstr [']'] r with
      | none => none
      | some j =>
          let after := r.drop (j + 1)
          let w := wsRun after
          if isTJat (after.drop w) then some (j, j + 1 + w + 2)
          else
            match closeTJGo fuel (r.drop (j + 1)) with
            | some (j2, k2) => some (j + 1 + j2, j + 1 + k2)
            | none => none

/-- `[...] TJ` array bodies inside a block (case-insensitive flag on the
regex).  If no `]`-then-`TJ` closer exists after the first `[`, none exists
after any later `[` either. -/
def tjArraysGo : Nat → List Char → List (List Char)
  | 0, _ => []
  | fuel + 1, s =>
      match findSubstr ['['] s with
      | none => []
      | some i =>
          let r := s.drop (i + 1)
          match closeTJGo r.length r with
          | some (j, k) => (r.take j) :: tjArraysGo fuel (r.drop k)
          | none => []

/-- `(...)` captures inside a `TJ` array body. -/
def parenCapturesGo : Nat → List Char → List (List Char)
  | 0, _ => []
  | fuel + 1, s =>
      match findSubstr ['('] s with
      | none => []
      | some i =>
          let r := s.drop (i + 1)
          match findSubstr [')'] r with
          | none => []
          | some j => (r.take j) :: parenCapturesGo fuel (r.drop (j + 1))

/-- The strings pushed onto `extractedText` for one block: first the `Tj`
captures (decoded, kept when the trimmed text is non-empty), then for each
`TJ` array the concatenation of its decoded non-empty literal strings (kept
when at least one part survived). -/
def blockTexts (block : List Char) : List (List Char) :=
  (((tjCapturesGo block.length block).map decodePDFString).filter
      (fun d => jsTrimL d ≠ [])) ++
  ((tjArraysGo block.length block).filterMap (fun arrc =>
      let parts := ((parenCapturesGo arrc.length arrc).map decodePDFString).filter (· ≠ [])
      if parts.isEmpty then none else some parts.flatten))

/-- `stream ... endstream` bodies (same lazy shape as the `BT`/`ET` blocks). -/
def streamBlocksGo : Nat → List Char → List (List Char)
  | 0, _ => []
  | fuel + 1, s =>
      match findSubstr ("stream".data) s with
      | none => []
      | some i =>
          let r := s.drop (i + 6)
          match findSubstr ("endstream".data) r with
          | none => []
          | some j =>
              jsTrimL (r.take j) :: streamBlocksGo fuel (r.drop (j + 9))

/-- Replace every byte outside printable ASCII (plus newline and carriage
return) by a space. -/
def printableOrSpace (c : Char) : Char :=
  if (' ' ≤ c ∧ c ≤ '~') ∨ c = '\n' ∨ c = '\r' then c else ' '

/-- The global replace of whitespace runs by one space. -/
def collapseWsGo : Nat → List Char → List Char
  | 0, cs => cs
  | _ + 1, [] => []
  | fuel + 1, c :: rest =>
      if isJsWs c then ' ' :: collapseWsGo fuel ((c :: rest).drop (wsRun (c :: rest)))
      else c :: collapseWsGo fuel rest

def collapseWs (cs : List Char) : List Char := collapseWsGo cs.length cs

/-- The global replace inserting a space between a lowercase letter and an
uppercase letter (`$1 $2`); the match consumes both letters. -/
def camelGo : List Char → List Char
  | a :: b :: rest =>
      if isAsciiLower a ∧ isAsciiUpper b then a :: ' ' :: b :: camelGo rest
      else a :: camelGo (b :: rest)
  | cs => cs

/-- `Array.prototype.join(' ')` on char lists. -/
def joinSepSpace : List (List Char) → List Char
  | [] => []
  | [x] => x
  | x :: y :: xs => x ++ ' ' :: joinSepSpace (y :: xs)

/-- `String.prototype.split(' ')` (single-space separator). -/
def splitOnSpace : List Char → List (List Char)
  | [] => [[]]
  | c :: rest =>
      if c = ' ' then [] :: splitOnSpace rest
      else
        match splitOnSpace rest with
        | t :: ts => (c :: t) :: ts
        | [] => [[c]]

/-- `String.prototype.split` on whitespace runs. -/
def splitWsGo : Nat → List Char → List (List Char)
  | 0, cs => [cs]
  | fuel + 1, cs =>
      let tok := cs.takeWhile (fun c => !isJsWs c)
      let rest := cs.drop tok.length
      match rest with
      | [] => [tok]
      | _ :: _ => tok :: splitWsGo fuel (rest.drop (wsRun rest))

def splitWsRegex (cs : List Char) : List (List Char) := splitWsGo cs.length cs

/-- At least two consecutive ASCII letters (the word-likeness test of the
aggressive fallback). -/
def hasTwoLetters : List Char → Bool
  | a :: b :: rest => (isAsciiLetter a && isAsciiLetter b) || hasTwoLetters (b :: rest)
  | _ => false

/-- One `stream` body's contribution: printable-sanitised, collapsed and
trimmed; if longer than 50 characters, its space-separated words of length
at least 2 containing a letter and not purely digits-and-dots; pushed when
more than 5 words survive. -/
def streamText? (content : List Char) : Option (List Char) :=
  let readable := jsTrimL (collapseWs (content.map printableOrSpace))
  if readable.length > 50 then
    let words := (splitOnSpace readable).filter (fun w =>
      decide (2 ≤ w.length) && w.any isAsciiLetter &&
      !(w.all (fun c => isDigitCh c || c = '.')))
    if words.length > 5 then some (joinSepSpace words) else none
  else none

/-- `extractTextFromPDF` (CV-upload handler lines 419-511).  The `try`
wrapper of the source is dead code: no statement of the body throws. -/
def extractTextFromPDF (data : List Nat) : String :=
  let text := latin1Decode data
  let fromBlocks := ((findBlocksGo text.length text).map blockTexts).flatten
  let fromStreams := (streamBlocksGo text.length text).filterMap streamText?
  let extracted := fromBlocks ++ fromStreams
  let result0 := jsTrimL (camelGo (collapseWs (joinSepSpace extracted)))
  if result0.length < 200 then
    let ascii := jsTrimL (collapseWs (text.map printableOrSpace))
    let meaningful := joinSepSpace ((splitWsRegex ascii).filter
        (fun w => decide (3 ≤ w.length) && hasTwoLetters w))
    if result0.length < meaningful.length then ⟨meaningful⟩ else ⟨result0⟩
  else ⟨result0⟩

/-! ## Claim-support definitions -/

/-- Is the value a non-empty JavaScript array?  (The profile claims speak of
a work-experience field that is "absent, not an array, or an empty array",
i.e. exactly the values for which this is `false`.) -/
def isNonemptyArr : JVal → Bool
  | .arr (_ :: _) => true
  | _ => false

/-- Concrete profile used to witness the empty-experience claim:
`workExperience` is a (truthy) non-array and `work_experience` an empty
array. -/
def c2prof : JVal :=
  .obj [("firstName", .str "Ada"), ("workExperience", .str "none"),
        ("work_experience", .arr [])]

/-- The document `extractTechnicalExperience` produces for `c2prof`. -/
def c2out : ResumeData :=
  { contact := { name := "Ada", email := .str "", phone := "", location := "",
                 linkedin := .str "", github := .str "", portfolio := .str "" }
    summary := .str "", experience := [], education := [], skills := "",
    certifications := "" }

/-- Every en dash has a space character directly on each side (the first
argument records whether the previous character was a space). -/
def dashSpacedAux : Bool → List Char → Bool
  | _, [] => true
  | prevSp, c :: rest =>
      if c = '–' then
        prevSp &&
        (match rest.head? with | some ' ' => true | _ => false) &&
        dashSpacedAux false rest
      else dashSpacedAux (decide (c = ' ')) rest

def dashSpaced (cs : List Char) : Bool := dashSpacedAux false cs

/-- The section start as the claim words it: the first (smallest-index)
occurrence of any of the four section headers. -/
def claimedStartIdx (up : List Char) : Option Nat :=
  (startMarkers.filterMap (fun m => findSubstr m up)).min?

/-- `getWorkExperienceFocusedText` as the claim describes it: section start
at the first occurrence of any header, section end at the first subsequent
occurrence of any terminator, capped at 25000; a 20000-character prefix when
no header occurs. -/
def getWorkExperienceFocusedTextClaimed (fullText : String) : String :=
  let text := fullText.data
  let upper := text.map Char.toUpper
  match claimedStartIdx upper with
  | none => ⟨text.take 20000⟩
  | some start =>
      let stop := (endMarkers.filterMap
          (fun m => findSubstrFrom m upper (start + 1))).foldr min upper.length
      let sect := (text.take stop).drop start
      if sect.length > 25000 then ⟨sect.take 25000⟩ else ⟨sect⟩

/-- The amended claim's model of `getWorkExperienceFocusedText`: the four
headers are tried in their fixed priority order (`WORK EXPERIENCE`,
`PROFESSIONAL EXPERIENCE`, `EXPERIENCE`, `EMPLOYMENT HISTORY`) and the first
header present anywhere selects the start (at its earliest occurrence); the
end is the earliest occurrence of any terminator at or after `start + 20`
(else the text end); the section is capped at 25000 characters, and a
20000-character prefix is returned when no header occurs. -/
def amendedFocusedText (fullText : String) : String :=
  let text := fullText.data
  let upper := text.map Char.toUpper
  match startMarkers.findSome? (fun m => findSubstr m upper) with
  | none => ⟨text.take 20000⟩
  | some start =>
      let stop := (endMarkers.filterMap
          (fun m => findSubstrFrom m upper (start + 20))).foldr min upper.length
      let sect := (text.take stop).drop start
      if sect.length > 25000 then ⟨sect.take 25000⟩ else ⟨sect⟩

/-- The five characters of `Hello`. -/
def helloChars : List Char := ['H', 'e', 'l', 'l', 'o']

/-- The show-operator text `(Hello) Tj` (10 characters). -/
def helloPat : List Char := ['(', 'H', 'e', 'l', 'l', 'o', ')', ' ', 'T', 'j']

/-- The full text block `BT (Hello) Tj ET` (16 characters). -/
def helloBlockPat : List Char :=
  ['B', 'T', ' ', '(', 'H', 'e', 'l', 'l', 'o', ')', ' ', 'T', 'j', ' ', 'E', 'T']

/-- The latin1 bytes of `BT (Hello) Tj ET`. -/
def c9bytes : List Nat :=
  [66, 84, 32, 40, 72, 101, 108, 108, 111, 41, 32, 84, 106, 32, 69, 84]

/-! ## Helper lemmas -/

theorem strLength_mk (l : List Char) : (String.mk l).length = l.length := rfl

theorem foldr_min_min (i e : Nat) (l : List Nat) :
    l.foldr min (min e i) = min i (l.foldr min e) := by
  induction l with
  | nil => exact Nat.min_comm e i
  | cons x l ih =>
      simp only [List.foldr_cons, ih]
      omega

theorem minEndIdx_eq_foldr (up : List Char) (k : Nat) :
    ∀ (ms : List (List Char)) (e : Nat),
      ms.foldl (fun e m =>
          match findSubstrFrom m up k with
          | some i => if i < e then i else e
          | none => e) e =
      (ms.filterMap (fun m => findSubstrFrom m up k)).foldr min e := by
  intro ms
  induction ms with
  | nil => intro e; rfl
  | cons m tl ih =>
      intro e
      simp only [List.foldl_cons, List.filterMap_cons]
      cases h : findSubstrFrom m up k with
      | none => simp only [h]; exact ih e
      | some i =>
          simp only [h, List.foldr_cons]
          rw [ih (if i < e then i else e)]
          have h2 : (if i < e then i else e) = min e i := by split <;> omega
          rw [h2, foldr_min_min]

theorem firstMarkerIdx_eq_findSome? (up : List Char) :
    ∀ ms : List (List Char), firstMarkerIdx ms up = ms.findSome? (fun m => findSubstr m up) := by
  intro ms
  induction ms with
  | nil => rfl
  | cons m tl ih =>
      simp only [firstMarkerIdx, List.findSome?_cons]
      cases findSubstr m up <;> simp [ih]

/-! ## Claims -/

/-- C8: for every string of length strictly less than 100 characters, the
readability heuristic `isTextReadable` classifies it as unreadable,
regardless of its content. -/
theorem C8_short_text_unreadable (s : String) (h : s.length < 100) :
    isTextReadable s = false := by
  unfold isTextReadable
  rw [if_pos (Or.inr h)]

theorem C8_short_text_unreadable_witness :
    ("experience education skills work").length < 100 ∧
    isTextReadable "experience education skills work" = false :=
  ⟨by decide, C8_short_text_unreadable _ (by decide)⟩

/-- C10: the string returned by `getWorkExperienceFocusedText` has length at
most 25000, and at most 20000 when no section header is found. -/
theorem C10_focused_text_bounded (s : String) :
    (getWorkExperienceFocusedText s).length ≤ 25000 ∧
    (firstMarkerIdx startMarkers (s.data.map Char.toUpper) = none →
      (getWorkExperienceFocusedText s).length ≤ 20000) := by
  unfold getWorkExperienceFocusedText
  cases h : firstMarkerIdx startMarkers (s.data.map Char.toUpper) with
  | none =>
      simp only [h, strLength_mk, List.length_take]
      omega
  | some start =>
      simp only [h]
      refine ⟨?_, fun hc => by simp at hc⟩
      split
      · simp only [strLength_mk, List.length_take]; omega
      · next hle => simp only [strLength_mk]; omega

theorem C10_focused_text_bounded_witness :
    firstMarkerIdx startMarkers ("abc".data.map Char.toUpper) = none ∧
    (getWorkExperienceFocusedText "abc").length ≤ 20000 :=
  ⟨by decide, (C10_focused_text_bounded "abc").2 (by decide)⟩

/-- C1 fails on the code: the greedy `(d 1 to 3)` group captures three
digits, so `"+12345678901"` formats to `"+123 45678901"`, not
`"+1 2345678901"`; and a phone without a leading `+` but with one later,
such as `"a+12"`, is reformatted rather than returned unmodified. -/
theorem C1_counterexample :
    formatPhone "+12345678901" ≠ "+1 2345678901" ∧ formatPhone "a+12" ≠ "a+12" := by
  constructor <;> decide

/-- C1 (amended): whenever the cleaned phone string (digits and `+` only)
is `+` followed by `n ≥ 2` digits and nothing else, `formatPhone` returns
`+<country> <rest>` where the country code is the first `min 3 (n - 1)`
digits (the group is greedy); in particular both example numbers format to
`"+123 45678901"`; and a phone string containing no `+` at all is returned
unmodified. -/
theorem C1_amended :
    (∀ (phone : String) (ds : List Char),
        phone.data.filter (fun c => isDigitCh c || c = '+') = '+' :: ds →
        ds.all isDigitCh = true → 2 ≤ ds.length →
        formatPhone phone
          = ⟨'+' :: (ds.take (min 3 (ds.length - 1)) ++
              ' ' :: ds.drop (min 3 (ds.length - 1)))⟩) ∧
    formatPhone "+1 2345678901" = "+123 45678901" ∧
    formatPhone "+12345678901" = "+123 45678901" ∧
    (∀ s : String, '+' ∉ s.data → formatPhone s = s) := by
  refine ⟨?_, by decide, by decide, ?_⟩
  · intro phone ds hfilt hall hlen
    unfold formatPhone
    split
    · next he =>
        rw [he] at hfilt
        simp at hfilt
    · next he =>
        simp only [hfilt, if_true]
        rw [if_pos ⟨hall, hlen⟩]
  · intro s h
    unfold formatPhone
    split
    · next he => exact he.symm
    · next he =>
        cases hc : s.data.filter (fun c => isDigitCh c || c = '+') with
        | nil => simp [hc]
        | cons c rest =>
            have hplus : c ≠ '+' := by
              intro hceq
              apply h
              have hm : c ∈ s.data.filter (fun c => isDigitCh c || c = '+') := by
                rw [hc]; exact List.mem_cons_self _ _
              rw [hceq] at hm
              exact List.mem_of_mem_filter hm
            simp [hc, hplus]

theorem C1_amended_witness :
    ("+1234".data.filter (fun c => isDigitCh c || c = '+') = '+' :: ['1', '2', '3', '4'] ∧
      (['1', '2', '3', '4'] : List Char).all isDigitCh = true ∧
      2 ≤ (['1', '2', '3', '4'] : List Char).length ∧
      '+' ∉ "0123456789".data) ∧
    formatPhone "+1234" = "+123 4" ∧ formatPhone "0123456789" = "0123456789" :=
  ⟨⟨by decide, by decide, by decide, by decide⟩,
    (C1_amended.1 "+1234" ['1', '2', '3', '4'] (by decide) (by decide) (by decide)).trans
      (by decide),
    C1_amended.2.2.2 "0123456789" (by decide)⟩

/-- C3 fails on the code: the first replace removes the word `Remote`, after
which no rule strips the now-bare parentheses, so `"Remote (USA)"` maps to
`"(USA)"`, not `"USA"`. -/
theorem C3_counterexample :
    cleanLocation "Remote (USA)" = "(USA)" ∧ "(USA)" ≠ "USA" := by
  constructor <;> decide

/-- C3 (amended): `cleanLocation` maps `"Remote (USA)"` to `"(USA)"` and
`"New York, Remote"` to `"New York"`. -/
theorem C3_amended :
    cleanLocation "Remote (USA)" = "(USA)" ∧ cleanLocation "New York, Remote" = "New York" := by
  constructor <;> decide

/-- C7 fails on the code: the trailing `.trim()` also removes whitespace that
is not "surrounding the marker" (`"• a "` becomes `"a"`, not `"a "`), and a
marker preceded by whitespace is not removed at all (`" - x"` becomes
`"- x"`, not `"x"`). -/
theorem C7_counterexample :
    cleanBullet "• a " ≠ "a " ∧ cleanBullet " - x" ≠ "x" := by
  constructor <;> decide

/-- C7 (amended): bullet cleaning removes one marker glyph only when it is
the very first character, together with the whitespace run that follows it,
and then trims leading and trailing whitespace from what remains; a bullet
whose first character is not a marker is merely trimmed. -/
theorem C7_amended :
    (∀ (s : String) (c : Char) (rest : List Char), s.data = c :: rest → c ∈ bulletMarkers →
        cleanBullet s = jsTrim ⟨rest.drop (wsRun rest)⟩) ∧
    (∀ s : String, (∀ c, s.data.head? = some c → c ∉ bulletMarkers) →
        cleanBullet s = jsTrim s) ∧
    cleanBullet "• a " = "a" ∧ cleanBullet " - x" = "- x" := by
  refine ⟨?_, ?_, by decide, by decide⟩
  · intro s c rest hdata hmem
    unfold cleanBullet stripBulletMarker jsTrim
    rw [hdata]
    simp [hmem]
  · intro s hnm
    unfold cleanBullet stripBulletMarker jsTrim
    cases hdata : s.data with
    | nil => simp
    | cons c rest =>
        have := hnm c (by rw [hdata]; rfl)
        simp [this]

theorem C7_amended_witness :
    ("- hi".data = '-' :: [' ', 'h', 'i'] ∧ '-' ∈ bulletMarkers) ∧
    cleanBullet "- hi" = jsTrim ⟨[' ', 'h', 'i'].drop (wsRun [' ', 'h', 'i'])⟩ :=
  ⟨⟨by decide, by decide⟩, C7_amended.1 "- hi" '-' [' ', 'h', 'i'] (by decide) (by decide)⟩

/-- C6: `parseFromProfilePage` never propagates an exception: for every
profile value (including ones that make the internal extraction throw) it
returns either a `success:true` envelope with data and no error, or a
`success:false` envelope carrying the error message. -/
theorem C6_never_throws (now : String) (p : JVal) :
    ((parseFromProfilePage now p).success = true ∧
     (parseFromProfilePage now p).error = none ∧
     ((parseFromProfilePage now p).data).isSome = true) ∨
    ((parseFromProfilePage now p).success = false ∧
     (parseFromProfilePage now p).data = none ∧
     ∃ msg, (parseFromProfilePage now p).error = some msg) := by
  unfold parseFromProfilePage
  cases extractTechnicalExperience p with
  | ok d => exact Or.inl ⟨rfl, rfl, rfl⟩
  | error e => exact Or.inr ⟨rfl, rfl, e, rfl⟩

/-- The error path of `parseFromProfilePage` is reachable (a null entry in
the work-experience array makes `job.company` throw, which the top-level
catch converts into a failure envelope): the claim's guarantee is about a
real catch, not dead code. -/
theorem parseFromProfilePage_error_reachable :
    (parseFromProfilePage "t" (.obj [("workExperience", .arr [.null])])).success = false := by
  decide

/-! ## C5: date normalization -/

theorem dash_not_mem_replaceDash (l : List Char) : '-' ∉ replaceDash l := by
  intro hm
  unfold replaceDash at hm
  rcases List.mem_map.mp hm with ⟨c, _, heq⟩
  by_cases h : c = '-' <;> simp [h] at heq

theorem spaceDashesGo_no_dash :
    ∀ (fuel : Nat) (l : List Char), '-' ∉ l → '-' ∉ spaceDashesGo fuel l := by
  intro fuel
  induction fuel with
  | zero => intro l h; simpa [spaceDashesGo] using h
  | succ fuel ih =>
      intro l h
      cases l with
      | nil => simp [spaceDashesGo]
      | cons c rest =>
          rw [spaceDashesGo]
          split
          · next rest2 heq =>
              intro hm
              simp only [List.mem_cons] at hm
              rcases hm with h1 | h1 | h1 | h1
              · exact absurd h1 (by decide)
              · exact absurd h1 (by decide)
              · exact absurd h1 (by decide)
              · refine ih _ ?_ h1
                intro hx
                have hx2 : '-' ∈ ('–' :: rest2) :=
                  List.mem_cons_of_mem _ (List.mem_of_mem_drop hx)
                rw [← heq] at hx2
                exact h (List.mem_of_mem_drop hx2)
          · next hne =>
              intro hm
              rcases List.mem_cons.mp hm with h1 | h1
              · exact h (h1 ▸ List.mem_cons_self _ _)
              · exact ih rest (fun hx => h (List.mem_cons_of_mem _ hx)) h1

theorem spaceDashesGo_spaced :
    ∀ (fuel : Nat) (l : List Char), l.length ≤ fuel →
      ∀ b, dashSpacedAux b (spaceDashesGo fuel l) = true := by
  intro fuel
  induction fuel with
  | zero =>
      intro l hlen b
      have : l = [] := List.length_eq_zero.mp (Nat.le_zero.mp hlen)
      subst this
      simp [spaceDashesGo, dashSpacedAux]
  | succ fuel ih =>
      intro l hlen b
      cases l with
      | nil => simp [spaceDashesGo, dashSpacedAux]
      | cons c rest =>
          rw [spaceDashesGo]
          split
          · next rest2 heq =>
              have hlen2 : (rest2.drop (wsRun rest2)).length ≤ fuel := by
                have h1 : ('–' :: rest2).length = (c :: rest).length - wsRun (c :: rest) := by
                  rw [← heq, List.length_drop]
                have h2 := List.length_drop (wsRun rest2) rest2
                simp only [List.length_cons] at h1 hlen ⊢
                omega
              simp only [dashSpacedAux]
              norm_num
              exact ⟨by decide, ih _ hlen2 true⟩
          · next hne =>
              have hc : c ≠ '–' := by
                intro hceq
                subst hceq
                have hws : wsRun ('–' :: rest) = 0 := by
                  unfold wsRun
                  rw [if_neg (by decide)]
                exact hne rest (by rw [hws]; rfl)
              have hlen2 : rest.length ≤ fuel := by
                simp only [List.length_cons] at hlen; omega
              simp only [dashSpacedAux, if_neg hc]
              exact ih rest hlen2 _

/-- C5: `normalizeDates` maps `"2019-2021"` and `"2019--2021"` to
`"2019 – 2021"`, and in general the hyphen variants are all converted — no
hyphen survives in the output — with every en dash of the output carrying a
space character directly on each side. -/
theorem C5_normalize_dates :
    normalizeDates "2019-2021" = "2019 – 2021" ∧
    normalizeDates "2019--2021" = "2019 – 2021" ∧
    ∀ s : String, '-' ∉ (normalizeDates s).data ∧ dashSpaced (normalizeDates s).data = true := by
  refine ⟨by decide, by decide, fun s => ?_⟩
  unfold normalizeDates
  split
  · exact ⟨by simp, by simp [dashSpaced, dashSpacedAux]⟩
  · refine ⟨?_, ?_⟩
    · exact spaceDashesGo_no_dash _ _ (dash_not_mem_replaceDash _)
    · exact spaceDashesGo_spaced _ _ (le_refl _) false

/-! ## C4: work-experience focusing -/

/-- C4 fails on the code: the code walks the marker list in priority order
and keeps the first marker found anywhere, so on a text whose earliest
header occurrence is `EXPERIENCE` but which also contains
`WORK EXPERIENCE` later, the returned substring starts at the later
`WORK EXPERIENCE`, not at the first occurrence of any header. -/
theorem C4_counterexample :
    getWorkExperienceFocusedText "AB EXPERIENCE CD WORK EXPERIENCE EF" = "WORK EXPERIENCE EF" ∧
    getWorkExperienceFocusedTextClaimed "AB EXPERIENCE CD WORK EXPERIENCE EF" =
      "EXPERIENCE CD WORK EXPERIENCE EF" ∧
    getWorkExperienceFocusedText "AB EXPERIENCE CD WORK EXPERIENCE EF" ≠
      getWorkExperienceFocusedTextClaimed "AB EXPERIENCE CD WORK EXPERIENCE EF" := by
  refine ⟨by decide, by decide, by decide⟩

/-- C4 (amended): `getWorkExperienceFocusedText` returns the substring
starting at the earliest occurrence of the first section header present when
the headers are tried in the fixed order `WORK EXPERIENCE`,
`PROFESSIONAL EXPERIENCE`, `EXPERIENCE`, `EMPLOYMENT HISTORY`; the substring
ends at the earliest occurrence of any terminator header at or after 20
characters past the section start (or at the text end), capped at 25000
characters; if no section header occurs it returns the first 20000
characters of the text. -/
theorem C4_amended (s : String) : getWorkExperienceFocusedText s = amendedFocusedText s := by
  simp only [getWorkExperienceFocusedText, amendedFocusedText]
  rw [firstMarkerIdx_eq_findSome?]
  cases h : startMarkers.findSome? (fun m => findSubstr m (s.data.map Char.toUpper)) with
  | none => rfl
  | some start =>
      simp only
      unfold minEndIdx
      rw [minEndIdx_eq_foldr]

/-! ## C2: profile-only experience extraction -/

theorem weVal_not_nonempty (p : JVal)
    (h1 : isNonemptyArr (getFieldOpt p "workExperience") = false)
    (h2 : isNonemptyArr (getFieldOpt p "work_experience") = false) :
    isNonemptyArr (weVal p) = false := by
  unfold weVal jsOr
  split
  · exact h1
  · split
    · exact h2
    · rfl

theorem experiencePart_nil (p : JVal) (h : isNonemptyArr (weVal p) = false) :
    experiencePart p = .ok [] := by
  unfold experiencePart
  split
  · next l heq =>
      cases l with
      | nil => simp
      | cons x xs => rw [heq] at h; exact absurd h (by simp [isNonemptyArr])
  · rfl

theorem extract_ok_experience (p : JVal) (d : ResumeData)
    (h : extractTechnicalExperience p = .ok d) :
    experiencePart p = .ok d.experience := by
  unfold extractTechnicalExperience at h
  cases hc : extractContactInfo p with
  | error e => simp only [hc] at h; exact Except.noConfusion h
  | ok contact =>
      simp only [hc] at h
      cases he : experiencePart p with
      | error e => simp only [he] at h; exact Except.noConfusion h
      | ok exper =>
          simp only [he] at h
          cases hed : extractEducation p with
          | error e => simp only [hed] at h; exact Except.noConfusion h
          | ok ed =>
              simp only [hed, Except.ok.injEq] at h
              rw [← h]

/-- C2: whenever the profile's `workExperience`/`work_experience` fields are
each absent, not an array, or an empty array, every document
`extractTechnicalExperience` returns has an empty experience list; and the
experience list is a function of the work-experience value alone — it is
never populated from any other field of the profile. -/
theorem C2_no_experience_fallback :
    (∀ p : JVal, isNonemptyArr (getFieldOpt p "workExperience") = false →
        isNonemptyArr (getFieldOpt p "work_experience") = false →
        ∀ d, extractTechnicalExperience p = .ok d → d.experience = []) ∧
    (∀ p q dp dq, weVal p = weVal q →
        extractTechnicalExperience p = .ok dp → extractTechnicalExperience q = .ok dq →
        dp.experience = dq.experience) := by
  constructor
  · intro p h1 h2 d hok
    have hexp := extract_ok_experience p d hok
    rw [experiencePart_nil p (weVal_not_nonempty p h1 h2)] at hexp
    exact (Except.ok.inj hexp).symm
  · intro p q dp dq hw hp hq
    have h1 := extract_ok_experience p dp hp
    have h2 := extract_ok_experience q dq hq
    unfold experiencePart at h1 h2
    rw [hw] at h1
    rw [h1] at h2
    exact Except.ok.inj h2

theorem c2prof_extract : extractTechnicalExperience c2prof = .ok c2out := by
  simp [extractTechnicalExperience, extractContactInfo, formatPhoneJ, cleanLocationJ,
        extractSummary, experiencePart, weVal, extractEducation, extractSkills,
        extractCertifications, getFieldOpt, jsOr, jsTruthy, jsToString, jsTrim, jsTrimL,
        jsJoin, c2prof, c2out, List.lookup, parseProfileExperience]
  constructor <;> decide

theorem C2_no_experience_fallback_witness :
    isNonemptyArr (getFieldOpt c2prof "workExperience") = false ∧
    isNonemptyArr (getFieldOpt c2prof "work_experience") = false ∧
    extractTechnicalExperience c2prof = .ok c2out ∧
    c2out.experience = [] :=
  ⟨by decide, by decide, c2prof_extract,
   C2_no_experience_fallback.1 c2prof (by decide) (by decide) c2out c2prof_extract⟩

/-! ## C9 groundwork: `findSubstr` as leftmost occurrence -/

theorem findSubstr_sound (pat : List Char) :
    ∀ (s : List Char) (i : Nat), findSubstr pat s = some i →
      ∃ u v, s = u ++ pat ++ v ∧ u.length = i := by
  intro s
  induction s with
  | nil =>
      intro i h
      unfold findSubstr at h
      split at h
      · next hp => exact ⟨[], [], by simp [hp], by simpa using Option.some.inj h⟩
      · exact absurd h (by simp)
  | cons c rest ih =>
      intro i h
      unfold findSubstr at h
      split at h
      · next hp =>
          rcases List.isPrefixOf_iff_prefix.mp hp with ⟨t, ht⟩
          refine ⟨[], t, by simp [← ht], ?_⟩
          simpa using Option.some.inj h
      · next hp =>
          rcases Option.map_eq_some'.mp h with ⟨i', hi', hinc⟩
          rcases ih i' hi' with ⟨u', v', hs', hl'⟩
          exact ⟨c :: u', v', by simp [hs'], by simp [hl', hinc]⟩

theorem findSubstr_exists (pat : List Char) :
    ∀ (u s v : List Char), s = u ++ pat ++ v → ∃ i, findSubstr pat s = some i := by
  intro u
  induction u with
  | nil =>
      intro s v hs
      simp only [List.nil_append] at hs
      cases hcase : s with
      | nil =>
          have hp : pat = [] := by
            cases pat with
            | nil => rfl
            | cons a b => rw [hcase] at hs; exact absurd hs (by simp)
          exact ⟨0, by simp [findSubstr, hp]⟩
      | cons c restc =>
          refine ⟨0, ?_⟩
          unfold findSubstr
          rw [if_pos (List.isPrefixOf_iff_prefix.mpr ⟨v, by rw [← hs, hcase]⟩)]
  | cons x u' ih =>
      intro s v hs
      rcases hcase : pat.isPrefixOf s with hfalse | htrue
      · have hs2 : s = x :: (u' ++ pat ++ v) := by simp [hs]
        rcases ih (u' ++ pat ++ v) v rfl with ⟨i', hi'⟩
        refine ⟨i' + 1, ?_⟩
        rw [hs2]
        unfold findSubstr
        rw [if_neg (by rw [← hs2, hcase]; exact Bool.false_ne_true), hi']
        rfl
      · refine ⟨0, ?_⟩
        cases hsc : s with
        | nil => exact absurd (hsc ▸ hs) (by simp)
        | cons c restc =>
            unfold findSubstr
            rw [if_pos (hsc ▸ hcase)]

theorem findSubstr_min (pat : List Char) :
    ∀ (u s v : List Char) (i : Nat), s = u ++ pat ++ v → findSubstr pat s = some i →
      i ≤ u.length := by
  intro u
  induction u with
  | nil =>
      intro s v i hs h
      simp only [List.nil_append] at hs
      cases hsc : s with
      | nil =>
          rw [hsc] at h
          unfold findSubstr at h
          split at h
          · simpa using (Option.some.inj h).symm
          · exact absurd h (by simp)
      | cons c restc =>
          rw [hsc] at h
          unfold findSubstr at h
          rw [if_pos (List.isPrefixOf_iff_prefix.mpr ⟨v, by rw [← hs, hsc]⟩)] at h
          simpa using (Option.some.inj h).symm
  | cons x u' ih =>
      intro s v i hs h
      have hs2 : s = x :: (u' ++ pat ++ v) := by simp [hs]
      rw [hs2] at h
      unfold findSubstr at h
      split at h
      · next hp =>
          have : i = 0 := by simpa using (Option.some.inj h).symm
          simp [this]
      · next hp =>
          rcases Option.map_eq_some'.mp h with ⟨i', hi', hinc⟩
          have := ih (u' ++ pat ++ v) v i' rfl hi'
          simp only [List.length_cons]
          omega

theorem drop_append_le {n : Nat} (l₁ l₂ : List Char) (h : n ≤ l₁.length) :
    (l₁ ++ l₂).drop n = l₁.drop n ++ l₂ := by
  rw [List.drop_append_eq_append_drop, Nat.sub_eq_zero_of_le h, List.drop_zero]

theorem findSubstr_drop (pat s : List Char) (i : Nat) (h : findSubstr pat s = some i) :
    ∃ v, s.drop i = pat ++ v := by
  rcases findSubstr_sound pat s i h with ⟨u, v, hs, hl⟩
  refine ⟨v, ?_⟩
  rw [hs, ← hl, List.append_assoc, List.drop_left]

theorem findSubstr_window (pat s : List Char) (i : Nat) (h : findSubstr pat s = some i)
    (k : Nat) (hk : k < pat.length) : s[i + k]? = pat[k]? := by
  rcases findSubstr_sound pat s i h with ⟨u, v, hs, hl⟩
  rw [hs, List.append_assoc, List.getElem?_append_right (by omega)]
  have hidx : i + k - u.length = k := by omega
  rw [hidx, List.getElem?_append, if_pos hk]

theorem wsRun_le_of_get (s : List Char) :
    ∀ (i : Nat) (c : Char), s[i]? = some c → isJsWs c = false → wsRun s ≤ i := by
  induction s with
  | nil => intro i c h _; simp at h
  | cons x rest ih =>
      intro i c h hws
      unfold wsRun
      split
      · next hx =>
          cases i with
          | zero =>
              simp only [List.getElem?_cons_zero, Option.some.injEq] at h
              rw [← h] at hws
              rw [hws] at hx
              exact absurd hx (by simp)
          | succ i' =>
              simp only [List.getElem?_cons_succ] at h
              have := ih i' c h hws
              omega
      · omega

theorem wsRun_ws (s : List Char) :
    ∀ (m : Nat), m < wsRun s → ∃ c, s[m]? = some c ∧ isJsWs c = true := by
  induction s with
  | nil => intro m h; simp [wsRun] at h
  | cons x rest ih =>
      intro m h
      unfold wsRun at h
      split at h
      · next hx =>
          cases m with
          | zero => exact ⟨x, by simp, hx⟩
          | succ m' =>
              rcases ih m' (by omega) with ⟨c, hc, hwsc⟩
              exact ⟨c, by simpa using hc, hwsc⟩
      · omega

/-! ## C9 groundwork: infix preservation through the decode pipeline -/

theorem infix_cons_lift (x : Char) (l t : List Char) (h : l <:+: t) : l <:+: x :: t :=
  List.infix_cons_iff.mpr (Or.inr h)

theorem infix_append_lift (x t l : List Char) (h : l <:+: t) : l <:+: x ++ t :=
  h.trans ⟨x, [], by simp⟩

theorem infix_append_lift_right (x t l : List Char) (h : l <:+: t) : l <:+: t ++ x :=
  h.trans ⟨[], x, by simp⟩

theorem infix_dropWhile (f : Char → Bool) (h0 : Char) (t0 : List Char) (hh : f h0 = false) :
    ∀ s : List Char, (h0 :: t0) <:+: s → (h0 :: t0) <:+: s.dropWhile f := by
  intro s
  induction s with
  | nil => intro h; rw [List.infix_nil] at h; exact absurd h (by simp)
  | cons x rest ih =>
      intro h
      by_cases hfx : f x = true
      · rw [List.dropWhile_cons, if_pos hfx]
        rcases List.infix_cons_iff.mp h with hpre | hinf
        · rcases List.cons_prefix_cons.mp hpre with ⟨heq, _⟩
          rw [← heq, hh] at hfx
          exact absurd hfx (by simp)
        · exact ih hinf
      · rw [List.dropWhile_cons, if_neg hfx]
        exact h

theorem infix_jsTrimL (h0 l0 : Char) (t0 : List Char)
    (hh : isJsWs h0 = false) (hl : (h0 :: t0).getLast? = some l0) (hwl : isJsWs l0 = false)
    (s : List Char) (h : (h0 :: t0) <:+: s) : (h0 :: t0) <:+: jsTrimL s := by
  unfold jsTrimL
  have s1 := infix_dropWhile isJsWs h0 t0 hh s h
  have s2 : (h0 :: t0).reverse <:+: (s.dropWhile isJsWs).reverse := List.reverse_infix.mpr s1
  obtain ⟨r0, rt, hrev⟩ : ∃ r0 rt, (h0 :: t0).reverse = r0 :: rt := by
    cases hr : (h0 :: t0).reverse with
    | nil => exact absurd (congrArg List.length hr) (by simp)
    | cons a b => exact ⟨a, b, rfl⟩
  have hr0 : r0 = l0 := by
    have hhead := List.head?_reverse (h0 :: t0)
    rw [hrev, hl] at hhead
    exact Option.some.inj hhead
  rw [hrev] at s2
  have s3 := infix_dropWhile isJsWs r0 rt (by rw [hr0]; exact hwl) _ s2
  rw [← hrev] at s3
  rw [← List.reverse_infix, List.reverse_reverse]
  exact s3

theorem jsTrimL_ne_nil (h0 l0 : Char) (t0 : List Char)
    (hh : isJsWs h0 = false) (hl : (h0 :: t0).getLast? = some l0) (hwl : isJsWs l0 = false)
    (s : List Char) (h : (h0 :: t0) <:+: s) : jsTrimL s ≠ [] := by
  intro hnil
  have h2 := infix_jsTrimL h0 l0 t0 hh hl hwl s h
  rw [hnil, List.infix_nil] at h2
  exact absurd h2 (by simp)

theorem repl2_copy (a b c : Char) :
    ∀ (w t : List Char), (∀ ch ∈ w, ch ≠ a) → repl2 a b c (w ++ t) = w ++ repl2 a b c t := by
  intro w
  induction w with
  | nil => intro t _; rfl
  | cons ch w' ih =>
      intro t hw
      have hch : ch ≠ a := hw ch (List.mem_cons_self _ _)
      cases hwt : w' ++ t with
      | nil =>
          rcases List.append_eq_nil.mp hwt with ⟨hw', ht⟩
          subst hw' ht
          rfl
      | cons z zs =>
          have hstep : repl2 a b c (ch :: z :: zs) = ch :: repl2 a b c (z :: zs) := by
            rw [repl2, if_neg (by intro hc; exact hch hc.1)]
          rw [List.cons_append, hwt, hstep, ← hwt,
              ih t (fun x hx => hw x (List.mem_cons_of_mem _ hx))]
          rfl

theorem repl2_infix (a b c : Char) (ha : a ∉ helloChars) (hb : b ≠ 'H') :
    ∀ (n : Nat) (s : List Char), s.length ≤ n → helloChars <:+: s →
      helloChars <:+: repl2 a b c s := by
  intro n
  induction n with
  | zero =>
      intro s hlen h
      have := h.length_le
      simp [helloChars] at this
      omega
  | succ n ih =>
      intro s hlen h
      cases s with
      | nil => rw [List.infix_nil] at h; exact absurd h (by simp [helloChars])
      | cons x rest =>
          cases rest with
          | nil =>
              have := h.length_le
              simp [helloChars] at this
          | cons y rest2 =>
              rw [repl2]
              split
              · next hxy =>
                  rcases List.infix_cons_iff.mp h with hpre | h2
                  · rcases List.cons_prefix_cons.mp (show ('H' : Char) :: ('e' :: 'l' :: 'l' :: 'o' :: []) <+: x :: y :: rest2 from hpre) with ⟨hH, _⟩
                    exact absurd (show a ∈ helloChars by
                      rw [show a = 'H' from by rw [← hxy.1, ← hH]]
                      exact List.mem_cons_self _ _) ha
                  · rcases List.infix_cons_iff.mp h2 with hpre2 | h3
                    · rcases List.cons_prefix_cons.mp (show ('H' : Char) :: ('e' :: 'l' :: 'l' :: 'o' :: []) <+: y :: rest2 from hpre2) with ⟨hH, _⟩
                      exact absurd (show b = 'H' from by rw [← hxy.2, ← hH]) hb
                    · exact infix_cons_lift _ _ _ (ih rest2 (by simp only [List.length_cons] at hlen; omega) h3)
              · next hxy =>
                  rcases List.infix_cons_iff.mp h with hpre | h2
                  · rcases hpre with ⟨t, ht⟩
                    simp only [helloChars, List.cons_append, List.nil_append] at ht
                    injection ht with hx1 ht2
                    injection ht2 with hy1 ht3
                    subst hx1 hy1 ht3
                    have hcopy := repl2_copy a b c ['e', 'l', 'l', 'o'] t
                      (by
                        intro ch hch hcha
                        apply ha
                        subst hcha
                        simp only [List.mem_cons, List.not_mem_nil, or_false] at hch
                        simp only [helloChars, List.mem_cons, List.not_mem_nil, or_false]
                        tauto)
                    rw [show ('e' :: 'l' :: 'l' :: 'o' ::t) = ['e', 'l', 'l', 'o'] ++ t from rfl, hcopy]
                    exact ⟨[], repl2 a b c t, by simp [helloChars]⟩
                  · exact infix_cons_lift _ _ _ (ih (y :: rest2) (by simp only [List.length_cons] at hlen ⊢; omega) h2)

theorem hello_infix_drop_oct (d : Char) (l : List Char) (hd : isOctalCh d = true)
    (h : helloChars <:+: d :: l) : helloChars <:+: l := by
  rcases List.infix_cons_iff.mp h with hpre | hinf
  · rcases List.cons_prefix_cons.mp (show ('H' : Char) :: ('e' :: 'l' :: 'l' :: 'o' :: []) <+: d :: l from hpre) with ⟨hH, _⟩
    rw [← hH] at hd
    exact absurd hd (by decide)
  · exact hinf

theorem hello_infix_octStep (rest : List Char) (h : helloChars <:+: rest) :
    helloChars <:+: (octStep rest).2 := by
  unfold octStep
  cases rest with
  | nil => rw [List.infix_nil] at h; exact absurd h (by simp [helloChars])
  | cons c1 r1 =>
      cases r1 with
      | nil =>
          have := h.length_le; simp [helloChars] at this
      | cons c2 r2 =>
          cases r2 with
          | nil =>
              have := h.length_le; simp [helloChars] at this
          | cons c3 r3 =>
              by_cases h1 : isOctalCh c1 = true
              · by_cases h2 : isOctalCh c2 = true
                · by_cases h3 : isOctalCh c3 = true
                  · simp only [h1, h2, h3, if_true]
                    exact hello_infix_drop_oct c3 r3 h3
                      (hello_infix_drop_oct c2 (c3 :: r3) h2
                        (hello_infix_drop_oct c1 (c2 :: c3 :: r3) h1 h))
                  · simp only [h1, h2, if_true, h3, if_false, Bool.false_eq_true]
                    exact hello_infix_drop_oct c2 (c3 :: r3) h2
                      (hello_infix_drop_oct c1 (c2 :: c3 :: r3) h1 h)
                · simp only [h1, if_true, h2, Bool.false_eq_true, if_false]
                  exact hello_infix_drop_oct c1 (c2 :: c3 :: r3) h1 h
              · simp only [h1, Bool.false_eq_true, if_false]
                exact h

theorem decodeOctalGo_copy :
    ∀ (w : List Char) (fuel : Nat) (t : List Char), (∀ ch ∈ w, ch ≠ '\\') →
      ∃ f', decodeOctalGo fuel (w ++ t) = w ++ decodeOctalGo f' t := by
  intro w
  induction w with
  | nil => intro fuel t _; exact ⟨fuel, rfl⟩
  | cons ch w' ih =>
      intro fuel t hw
      cases fuel with
      | zero => exact ⟨0, rfl⟩
      | succ fuel =>
          have hch : ch ≠ '\\' := hw ch (List.mem_cons_self _ _)
          rcases ih fuel t (fun x hx => hw x (List.mem_cons_of_mem _ hx)) with ⟨f', hf'⟩
          refine ⟨f', ?_⟩
          rw [List.cons_append, decodeOctalGo, if_neg hch, hf', List.cons_append]

theorem decodeOctalGo_infix :
    ∀ (fuel : Nat) (s : List Char), helloChars <:+: s → helloChars <:+: decodeOctalGo fuel s := by
  intro fuel
  induction fuel with
  | zero => intro s h; exact h
  | succ fuel ih =>
      intro s h
      cases s with
      | nil => rw [List.infix_nil] at h; exact absurd h (by simp [helloChars])
      | cons x rest =>
          rw [decodeOctalGo]
          split
          · next hx =>
              have h2 : helloChars <:+: rest := by
                rcases List.infix_cons_iff.mp h with hpre | h2
                · rcases List.cons_prefix_cons.mp (show ('H' : Char) :: ('e' :: 'l' :: 'l' :: 'o' :: []) <+: x :: rest from hpre) with ⟨hH, _⟩
                  rw [hx] at hH
                  exact absurd hH (by decide)
                · exact h2
              exact infix_append_lift _ _ _ (ih _ (hello_infix_octStep rest h2))
          · next hx =>
              rcases List.infix_cons_iff.mp h with hpre | h2
              · rcases hpre with ⟨t, ht⟩
                simp only [helloChars, List.cons_append, List.nil_append] at ht
                injection ht with hx1 ht2
                subst hx1 ht2
                rcases decodeOctalGo_copy ['e', 'l', 'l', 'o'] fuel t (by decide) with ⟨f', hf'⟩
                rw [show ('e' :: 'l' :: 'l' :: 'o' ::t) = ['e', 'l', 'l', 'o'] ++ t from rfl, hf']
                exact ⟨[], decodeOctalGo f' t, by simp [helloChars]⟩
              · exact infix_cons_lift _ _ _ (ih rest h2)

theorem decodePDFString_infix (s : List Char) (h : helloChars <:+: s) :
    helloChars <:+: decodePDFString s := by
  unfold decodePDFString decodeOctal
  apply decodeOctalGo_infix
  apply repl2_infix '\\' '\\' '\\' (by decide) (by decide) _ _ (le_refl _)
  apply repl2_infix '\\' ')' ')' (by decide) (by decide) _ _ (le_refl _)
  apply repl2_infix '\\' '(' '(' (by decide) (by decide) _ _ (le_refl _)
  apply repl2_infix '\\' 't' '\t' (by decide) (by decide) _ _ (le_refl _)
  apply repl2_infix '\\' 'r' '\r' (by decide) (by decide) _ _ (le_refl _)
  apply repl2_infix '\\' 'n' '\n' (by decide) (by decide) _ _ (le_refl _)
  exact h

theorem wsRun_le_append (u : List Char) (h0 : Char) (t0 v : List Char)
    (hh : isJsWs h0 = false) : wsRun (u ++ (h0 :: t0) ++ v) ≤ u.length := by
  apply wsRun_le_of_get _ u.length h0 _ hh
  rw [List.append_assoc, List.getElem?_append_right (le_refl u.length)]
  simp

theorem collapseWsGo_copy :
    ∀ (w : List Char) (fuel : Nat) (t : List Char), (∀ ch ∈ w, isJsWs ch = false) →
      ∃ f', collapseWsGo fuel (w ++ t) = w ++ collapseWsGo f' t := by
  intro w
  induction w with
  | nil => intro fuel t _; exact ⟨fuel, rfl⟩
  | cons ch w' ih =>
      intro fuel t hw
      cases fuel with
      | zero => exact ⟨0, rfl⟩
      | succ fuel =>
          have hch : isJsWs ch = false := hw ch (List.mem_cons_self _ _)
          rcases ih fuel t (fun x hx => hw x (List.mem_cons_of_mem _ hx)) with ⟨f', hf'⟩
          refine ⟨f', ?_⟩
          rw [List.cons_append, collapseWsGo, if_neg (by rw [hch]; simp), hf', List.cons_append]

theorem collapseWsGo_infix (h0 : Char) (t0 : List Char)
    (hall : ∀ ch ∈ (h0 :: t0), isJsWs ch = false) :
    ∀ (fuel : Nat) (s : List Char), (h0 :: t0) <:+: s → (h0 :: t0) <:+: collapseWsGo fuel s := by
  intro fuel
  induction fuel with
  | zero => intro s h; exact h
  | succ fuel ih =>
      intro s h
      rcases h with ⟨u, v, huv⟩
      cases u with
      | nil =>
          simp only [List.nil_append] at huv
          rcases collapseWsGo_copy (h0 :: t0) (fuel + 1) v hall with ⟨f', hf'⟩
          rw [← huv, hf']
          exact ⟨[], _, rfl⟩
      | cons a u' =>
          have hs : s = a :: (u' ++ (h0 :: t0) ++ v) := by rw [← huv]; rfl
          rw [hs, collapseWsGo]
          split
          · next hws =>
              apply infix_cons_lift
              apply ih
              rw [show (a :: (u' ++ (h0 :: t0) ++ v)) = (a :: u') ++ ((h0 :: t0) ++ v) from by simp]
              have hb : wsRun ((a :: u') ++ ((h0 :: t0) ++ v)) ≤ (a :: u').length := by
                rw [← List.append_assoc]
                exact wsRun_le_append (a :: u') h0 t0 v (hall h0 (List.mem_cons_self _ _))
              rw [drop_append_le _ _ hb]
              exact ⟨_, v, by rw [List.append_assoc]⟩
          · next hws =>
              exact infix_cons_lift _ _ _ (ih _ ⟨u', v, rfl⟩)

theorem camelGo_ello (t : List Char) :
    ∃ t', camelGo ('e' :: 'l' :: 'l' :: 'o' :: t) = 'e' :: 'l' :: 'l' :: 'o' :: t' := by
  rw [camelGo, if_neg (by decide), camelGo, if_neg (by decide), camelGo, if_neg (by decide)]
  cases t with
  | nil => exact ⟨[], rfl⟩
  | cons w ws =>
      rw [camelGo]
      split
      · exact ⟨' ' :: w :: camelGo ws, rfl⟩
      · exact ⟨camelGo (w :: ws), rfl⟩

theorem camelGo_infix_hello :
    ∀ (n : Nat) (s : List Char), s.length ≤ n → helloChars <:+: s →
      helloChars <:+: camelGo s := by
  intro n
  induction n with
  | zero =>
      intro s hlen h
      have := h.length_le
      simp [helloChars] at this
      omega
  | succ n ih =>
      intro s hlen h
      rcases h with ⟨u, v, huv⟩
      cases u with
      | nil =>
          simp only [List.nil_append] at huv
          rw [← huv]
          show helloChars <:+: camelGo ('H' :: 'e' :: 'l' :: 'l' :: 'o' :: v)
          rw [camelGo, if_neg (by decide)]
          rcases camelGo_ello v with ⟨t', ht'⟩
          rw [ht']
          exact ⟨[], t', by simp [helloChars]⟩
      | cons a u' =>
          have hs : s = a :: (u' ++ helloChars ++ v) := by rw [← huv]; rfl
          cases hrest : u' ++ helloChars ++ v with
          | nil =>
              exact absurd (congrArg List.length hrest) (by simp [helloChars])
          | cons b rest2 =>
              have hinf2 : helloChars <:+: b :: rest2 := by rw [← hrest]; exact ⟨u', v, rfl⟩
              have hlen2 : (b :: rest2).length ≤ n := by
                have : s.length = (b :: rest2).length + 1 := by rw [hs, hrest]; rfl
                omega
              rw [hs, hrest, camelGo]
              split
              · next hab =>
                  rcases List.infix_cons_iff.mp hinf2 with hpre | h3
                  · rcases hpre with ⟨t, ht⟩
                    simp only [helloChars, List.cons_append, List.nil_append] at ht
                    injection ht with hb1 ht2
                    subst hb1 ht2
                    rcases camelGo_ello t with ⟨t', ht'⟩
                    rw [ht']
                    exact ⟨[a, ' '], t', by simp [helloChars]⟩
                  · refine infix_cons_lift _ _ _ (infix_cons_lift _ _ _ (infix_cons_lift _ _ _ ?_))
                    exact ih rest2 (by simp only [List.length_cons] at hlen2; omega) h3
              · next hab =>
                  exact infix_cons_lift _ _ _ (ih (b :: rest2) hlen2 hinf2)

theorem infix_joinSepSpace (pat : List Char) :
    ∀ (l : List (List Char)) (x : List Char), x ∈ l → pat <:+: x → pat <:+: joinSepSpace l := by
  intro l
  induction l with
  | nil => intro x hx; simp at hx
  | cons y ys ih =>
      intro x hx h
      rcases List.mem_cons.mp hx with rfl | hmem
      · cases ys with
        | nil => exact h
        | cons z zs =>
            rw [joinSepSpace]
            exact h.trans ⟨[], ' ' :: joinSepSpace (z :: zs), by simp⟩
      · cases ys with
        | nil => simp at hmem
        | cons z zs =>
            rw [joinSepSpace]
            exact infix_append_lift _ _ _ (infix_cons_lift _ _ _ (ih x hmem h))

theorem hasTwoLetters_hello :
    ∀ (t : List Char), helloChars <:+: t → hasTwoLetters t = true := by
  intro t
  induction t with
  | nil => intro h; rw [List.infix_nil] at h; exact absurd h (by simp [helloChars])
  | cons a rest ih =>
      intro h
      cases rest with
      | nil =>
          have := h.length_le
          simp [helloChars] at this
      | cons b rest2 =>
          rw [hasTwoLetters]
          rcases List.infix_cons_iff.mp h with hpre | h2
          · rcases List.cons_prefix_cons.mp (show ('H' : Char) :: ('e' :: 'l' :: 'l' :: 'o' :: []) <+: a :: b :: rest2 from hpre) with ⟨ha, hpre2⟩
            rcases List.cons_prefix_cons.mp hpre2 with ⟨hb, _⟩
            rw [← ha, ← hb]
            simp
            exact Or.inl ⟨by decide, by decide⟩
          · simp [ih h2]

theorem drop_length_takeWhile (p : Char → Bool) :
    ∀ s : List Char, s.drop (s.takeWhile p).length = s.dropWhile p := by
  intro s
  induction s with
  | nil => rfl
  | cons x rest ih =>
      rw [List.takeWhile_cons, List.dropWhile_cons]
      split
      · simpa using ih
      · simp

theorem dropWhile_cons_false (p : Char → Bool) :
    ∀ (l : List Char) (c : Char) (t : List Char), l.dropWhile p = c :: t → p c = false := by
  intro l
  induction l with
  | nil => intro c t h; simp at h
  | cons x rest ih =>
      intro c t h
      rw [List.dropWhile_cons] at h
      split at h
      · exact ih c t h
      · next hpx =>
          injection h with h1 _
          rw [← h1]
          simpa using hpx

theorem take_append_full (u pat v : List Char) (L : Nat) (h : u.length + pat.length ≤ L) :
    (u ++ pat ++ v).take L = u ++ pat ++ v.take (L - u.length - pat.length) := by
  rw [List.append_assoc, List.take_append_eq_append_take,
      List.take_of_length_le (by omega : u.length ≤ L),
      List.take_append_eq_append_take,
      List.take_of_length_le (by omega : pat.length ≤ L - u.length),
      List.append_assoc]


theorem splitWsGo_token (h0 : Char) (t0 : List Char)
    (hall : ∀ ch ∈ (h0 :: t0), isJsWs ch = false) :
    ∀ (fuel : Nat) (s : List Char), (h0 :: t0) <:+: s →
      ∃ tok ∈ splitWsGo fuel s, (h0 :: t0) <:+: tok := by
  intro fuel
  induction fuel with
  | zero => intro s h; exact ⟨s, by simp [splitWsGo], h⟩
  | succ fuel ih =>
      intro s h
      rcases h with ⟨u, v, huv⟩
      have htokdef : s.drop (s.takeWhile (fun c => !isJsWs c)).length
          = s.dropWhile (fun c => !isJsWs c) := drop_length_takeWhile _ s
      simp only [splitWsGo]
      set L := (s.takeWhile (fun c => !isJsWs c)).length with hLdef
      cases hrest : s.drop L with
      | nil =>
          refine ⟨s.takeWhile (fun c => !isJsWs c), by exact List.mem_cons_self _ _, ?_⟩
          have hsdec := List.takeWhile_append_dropWhile (fun c => !isJsWs c) s
          rw [← htokdef, hrest, List.append_nil] at hsdec
          rw [hsdec]
          exact ⟨u, v, huv⟩
      | cons r0 rrest =>
          have hr0ws : isJsWs r0 = true := by
            have hfalse := dropWhile_cons_false (fun c => !isJsWs c) s r0 rrest
              (by rw [← htokdef, hrest])
            simpa using hfalse
          have hsdec : s = s.takeWhile (fun c => !isJsWs c) ++ (r0 :: rrest) := by
            conv_lhs => rw [← List.takeWhile_append_dropWhile (fun c => !isJsWs c) s]
            rw [← htokdef, hrest]
          have htok := congrArg (List.take L) hsdec
          rw [hLdef, List.take_left, ← hLdef] at htok
          by_cases hcase : u.length + (h0 :: t0).length ≤ L
          · refine ⟨s.takeWhile (fun c => !isJsWs c), by exact List.mem_cons_self _ _, ?_⟩
            rw [← htok, ← huv, take_append_full u (h0 :: t0) v L hcase]
            exact ⟨u, _, rfl⟩
          · have hLu : L < u.length := by
              by_contra hnot
              push_neg at hnot
              have hk : L - u.length < (h0 :: t0).length := by omega
              have hs1 : s[L]? = some r0 := by
                conv_lhs => rw [hsdec]
                rw [List.getElem?_append_right (by omega : (s.takeWhile (fun c => !isJsWs c)).length ≤ L)]
                rw [show L - (s.takeWhile (fun c => !isJsWs c)).length = 0 from by omega]
                simp
              have hs2 : s[L]? = (h0 :: t0)[L - u.length]? := by
                conv_lhs => rw [← huv]
                rw [List.append_assoc, List.getElem?_append_right hnot,
                    List.getElem?_append, if_pos hk]
              have hmem : (h0 :: t0)[L - u.length]? = some ((h0 :: t0).get ⟨L - u.length, hk⟩) := by
                rw [List.getElem?_eq_getElem hk]
                rfl
              have hr0eq : r0 = (h0 :: t0).get ⟨L - u.length, hk⟩ := by
                rw [hs2, hmem] at hs1
                exact (Option.some.inj hs1).symm
              have hnws : isJsWs ((h0 :: t0).get ⟨L - u.length, hk⟩) = false :=
                hall _ (List.get_mem (h0 :: t0) (L - u.length) hk)
              rw [← hr0eq] at hnws
              rw [hnws] at hr0ws
              exact absurd hr0ws (by simp)
            have hdropL : s.drop L = u.drop L ++ ((h0 :: t0) ++ v) := by
              conv_lhs => rw [← huv]
              rw [List.append_assoc]
              exact drop_append_le u _ (by omega)
            have hinner : (h0 :: t0) <:+: (r0 :: rrest).drop (wsRun (r0 :: rrest)) := by
              rw [← hrest, hdropL]
              have hb : wsRun (u.drop L ++ ((h0 :: t0) ++ v)) ≤ (u.drop L).length := by
                rw [← List.append_assoc]
                exact wsRun_le_append _ h0 t0 v (hall h0 (List.mem_cons_self _ _))
              rw [drop_append_le _ _ hb]
              exact ⟨_, v, by rw [List.append_assoc]⟩
            rcases ih _ hinner with ⟨tok, htokmem, htokinf⟩
            exact ⟨tok, List.mem_cons_of_mem _ htokmem, htokinf⟩

/-! ## C9: the `BT`/`ET` block scanner finds a block containing `(Hello) Tj` -/

theorem findBlocksGo_hello :
    ∀ (fuel : Nat) (s u v : List Char), s.length ≤ fuel → s = u ++ helloBlockPat ++ v →
      ∃ blk ∈ findBlocksGo fuel s, helloPat <:+: blk := by
  intro fuel
  induction fuel with
  | zero =>
      intro s u v hlen hs
      rw [hs] at hlen
      simp [helloBlockPat] at hlen
  | succ fuel' ih =>
      intro s u v hlen hs
      have hsplit : helloBlockPat = ['B', 'T'] ++ ([' '] ++ helloPat ++ [' ']) ++ ['E', 'T'] := by
        decide
      -- locate the first BT
      have hs1 : s = u ++ ['B', 'T'] ++ (([' '] ++ helloPat ++ [' ']) ++ ['E', 'T'] ++ v) := by
        rw [hs, hsplit]
        simp [List.append_assoc]
      rcases findSubstr_exists ['B', 'T'] u s _ hs1 with ⟨b, hb⟩
      have hble : b ≤ u.length := findSubstr_min ['B', 'T'] u s _ b hs1 hb
      -- the text after that BT
      have hs2 : s = (u ++ (['B', 'T'] ++ ([' '] ++ helloPat ++ [' ']))) ++ (['E', 'T'] ++ v) := by
        rw [hs, hsplit]
        simp [List.append_assoc]
      have hulen : (u ++ (['B', 'T'] ++ ([' '] ++ helloPat ++ [' ']))).length = u.length + 14 := by
        simp [helloPat]
      have hA : s.drop (b + 2)
          = (u ++ (['B', 'T'] ++ ([' '] ++ helloPat ++ [' ']))).drop (b + 2) ++ (['E', 'T'] ++ v) := by
        conv_lhs => rw [hs2]
        exact drop_append_le _ _ (by omega)
      have hYlen : ((u ++ (['B', 'T'] ++ ([' '] ++ helloPat ++ [' ']))).drop (b + 2)).length
          = u.length + 14 - (b + 2) := by
        rw [List.length_drop, hulen]
      -- locate the first ET after it
      rcases findSubstr_exists ['E', 'T']
          ((u ++ (['B', 'T'] ++ ([' '] ++ helloPat ++ [' ']))).drop (b + 2)) (s.drop (b + 2)) v
          (by rw [hA]; simp) with ⟨e, he⟩
      have hele : e ≤ u.length + 14 - (b + 2) := by
        have := findSubstr_min ['E', 'T']
          ((u ++ (['B', 'T'] ++ ([' '] ++ helloPat ++ [' ']))).drop (b + 2))
          (s.drop (b + 2)) v e (by rw [hA]; simp) he
        omega
      simp only [findBlocksGo, hb, he]
      by_cases hcase : e = u.length + 14 - (b + 2)
      · -- the first ET after the BT is the block pattern's own ET
        refine ⟨_, List.mem_cons_self _ _, ?_⟩
        have htake : (s.drop (b + 2)).take e
            = (u ++ (['B', 'T'] ++ ([' '] ++ helloPat ++ [' ']))).drop (b + 2) := by
          rw [hA, hcase, ← hYlen, List.take_left]
        rw [htake]
        have hY : (u ++ (['B', 'T'] ++ ([' '] ++ helloPat ++ [' ']))).drop (b + 2)
            = (u ++ ['B', 'T']).drop (b + 2) ++ ([' '] ++ helloPat ++ [' ']) := by
          rw [show u ++ (['B', 'T'] ++ ([' '] ++ helloPat ++ [' ']))
              = (u ++ ['B', 'T']) ++ ([' '] ++ helloPat ++ [' ']) from by simp]
          exact drop_append_le _ _ (by simp; omega)
        rw [hY]
        have hpat : helloPat = '(' :: ['H', 'e', 'l', 'l', 'o', ')', ' ', 'T', 'j'] := by decide
        rw [hpat]
        apply infix_jsTrimL '(' 'j' _ (by decide) (by decide) (by decide)
        exact ⟨(u ++ ['B', 'T']).drop (b + 2) ++ [' '], [' '], by rw [← hpat]; simp⟩
      · -- the first ET lies before the block: it is inside `u`, recurse
        have helt : e < u.length + 14 - (b + 2) := lt_of_le_of_ne hele hcase
        have hwin := findSubstr_window ['E', 'T'] (s.drop (b + 2)) e he
        have hsE : s[b + 2 + e]? = some 'E' := by
          have h0 := hwin 0 (by decide)
          rw [List.getElem?_drop] at h0
          simpa using h0
        have hsT : s[b + 2 + e + 1]? = some 'T' := by
          have h1 := hwin 1 (by decide)
          rw [List.getElem?_drop] at h1
          rw [show b + 2 + (e + 1) = b + 2 + e + 1 from by omega] at h1
          simpa using h1
        have hsub : ∀ k, k < 16 → s[u.length + k]? = helloBlockPat[k]? := by
          intro k hk
          have hidx : u.length + k - u.length = k := by omega
          have hlen16 : helloBlockPat.length = 16 := by decide
          conv_lhs => rw [hs]
          rw [List.append_assoc, List.getElem?_append_right (by omega), hidx,
              List.getElem?_append, if_pos (by rw [hlen16]; exact hk)]
        have hle : b + 2 + e + 2 ≤ u.length := by
          by_contra hgt
          push_neg at hgt
          have hk16 : b + 2 + e + 1 - u.length < 16 := by omega
          have hTk := hsub (b + 2 + e + 1 - u.length) hk16
          rw [show u.length + (b + 2 + e + 1 - u.length) = b + 2 + e + 1 from by omega, hsT] at hTk
          rcases Nat.eq_zero_or_pos (b + 2 + e + 1 - u.length) with hk0 | hkpos
          · rw [hk0] at hTk
            have : helloBlockPat[0]? = some 'B' := by decide
            rw [this] at hTk
            exact absurd (Option.some.inj hTk) (by decide)
          · have hEk := hsub (b + 2 + e + 1 - u.length - 1) (by omega)
            rw [show u.length + (b + 2 + e + 1 - u.length - 1) = b + 2 + e from by omega, hsE] at hEk
            have hnoE : ∀ j, j < 14 → helloBlockPat[j]? ≠ some 'E' := by decide
            exact hnoE (b + 2 + e + 1 - u.length - 1) (by omega) hEk.symm
        have hdd : (s.drop (b + 2)).drop (e + 2) = s.drop (b + 2 + e + 2) := by
          rw [List.drop_drop]
          congr 1
        have hsdrop : s.drop (b + 2 + e + 2)
            = u.drop (b + 2 + e + 2) ++ helloBlockPat ++ v := by
          conv_lhs => rw [hs]
          rw [List.append_assoc, drop_append_le _ _ hle, List.append_assoc]
        have hlen2 : (s.drop (b + 2 + e + 2)).length ≤ fuel' := by
          rw [List.length_drop]
          omega
        rcases ih (s.drop (b + 2 + e + 2)) (u.drop (b + 2 + e + 2)) v hlen2 hsdrop
          with ⟨blk, hmem, hinf⟩
        rw [← hdd] at hmem
        exact ⟨blk, List.mem_cons_of_mem _ hmem, hinf⟩

/-! ## C9: the `Tj` capture scanner finds a capture containing `Hello` -/

theorem tjCapturesGo_hello :
    ∀ (fuel : Nat) (s u v : List Char), s.length ≤ fuel → s = u ++ helloPat ++ v →
      ∃ cap ∈ tjCapturesGo fuel s, helloChars <:+: cap := by
  intro fuel
  induction fuel with
  | zero =>
      intro s u v hlen hs
      rw [hs] at hlen
      simp [helloPat] at hlen
  | succ fuel' ih =>
      intro s u v hlen hs
      have hsplit : helloPat = ['('] ++ helloChars ++ [')'] ++ [' ', 'T', 'j'] := by decide
      have hs1 : s = u ++ ['('] ++ (helloChars ++ ([')'] ++ (' ' :: 'T' :: 'j' :: v))) := by
        rw [hs, hsplit]
        simp
      rcases findSubstr_exists ['('] u s _ hs1 with ⟨i, hi⟩
      have hile : i ≤ u.length := findSubstr_min ['('] u s _ i hs1 hi
      have hs2 : s = (u ++ ('(' :: helloChars)) ++ (')' :: ' ' :: 'T' :: 'j' :: v) := by
        rw [hs, hsplit]
        simp
      have hPlen : (u ++ ('(' :: helloChars)).length = u.length + 6 := by
        simp [helloChars]
      have hr : s.drop (i + 1)
          = (u ++ ('(' :: helloChars)).drop (i + 1) ++ (')' :: ' ' :: 'T' :: 'j' :: v) := by
        rw [hs2]
        exact drop_append_le _ _ (by omega)
      have hYlen : ((u ++ ('(' :: helloChars)).drop (i + 1)).length = u.length + 6 - (i + 1) := by
        rw [List.length_drop, hPlen]
      rcases findSubstr_exists [')'] ((u ++ ('(' :: helloChars)).drop (i + 1)) (s.drop (i + 1))
          (' ' :: 'T' :: 'j' :: v) (by rw [hr]; simp) with ⟨j, hj⟩
      have hjle : j ≤ u.length + 6 - (i + 1) := by
        have := findSubstr_min [')'] ((u ++ ('(' :: helloChars)).drop (i + 1)) (s.drop (i + 1))
          (' ' :: 'T' :: 'j' :: v) j (by rw [hr]; simp) hj
        omega
      simp only [tjCapturesGo, hi, hj]
      by_cases hcase : j = u.length + 6 - (i + 1)
      · -- the first close-paren after the open-paren is the pattern's own one
        have hafter : (s.drop (i + 1)).drop (j + 1) = ' ' :: 'T' :: 'j' :: v := by
          rw [hr, List.drop_append_eq_append_drop, List.drop_eq_nil_of_le (by omega),
              show j + 1 - ((u ++ ('(' :: helloChars)).drop (i + 1)).length = 1 from by omega]
          rfl
        have hws : wsRun ((s.drop (i + 1)).drop (j + 1)) = 1 := by
          rw [hafter]
          simp [wsRun, show isJsWs ' ' = true from by decide, show isJsWs 'T' = false from by decide]
        have ha2 : ((s.drop (i + 1)).drop (j + 1)).drop (wsRun ((s.drop (i + 1)).drop (j + 1)))
            = 'T' :: 'j' :: v := by
          rw [hws, hafter]
          simp
        rw [if_pos (by rw [ha2]; simp)]
        refine ⟨_, List.mem_cons_self _ _, ?_⟩
        have htake : (s.drop (i + 1)).take j = (u ++ ('(' :: helloChars)).drop (i + 1) := by
          rw [hr, show j = ((u ++ ('(' :: helloChars)).drop (i + 1)).length from by omega,
              List.take_left]
        rw [htake]
        have hsuf : (u ++ ('(' :: helloChars)).drop (i + 1)
            = (u ++ ['(']).drop (i + 1) ++ helloChars := by
          rw [show u ++ ('(' :: helloChars) = (u ++ ['(']) ++ helloChars from by simp]
          exact drop_append_le _ _ (by simp; omega)
        rw [hsuf]
        exact ⟨(u ++ ['(']).drop (i + 1), [], by simp⟩
      · -- the first close-paren lies strictly inside `u`
        have hjlt : j < u.length + 6 - (i + 1) := lt_of_le_of_ne hjle hcase
        have hwin := findSubstr_window [')'] (s.drop (i + 1)) j hj
        have hsP : s[i + 1 + j]? = some ')' := by
          have h0 := hwin 0 (by decide)
          rw [List.getElem?_drop] at h0
          simpa using h0
        have hsub : ∀ k, k < 10 → s[u.length + k]? = helloPat[k]? := by
          intro k hk
          have hidx : u.length + k - u.length = k := by omega
          have hlen10 : helloPat.length = 10 := by decide
          conv_lhs => rw [hs]
          rw [List.append_assoc, List.getElem?_append_right (by omega), hidx,
              List.getElem?_append, if_pos (by rw [hlen10]; exact hk)]
        have hin : i + 1 + j < u.length := by
          by_contra hgt
          push_neg at hgt
          have hk10 : i + 1 + j - u.length < 10 := by omega
          have hPk := hsub (i + 1 + j - u.length) hk10
          rw [show u.length + (i + 1 + j - u.length) = i + 1 + j from by omega, hsP] at hPk
          have hnoP : ∀ m, m < 7 → helloPat[m]? ≠ some ')' ∨ m = 6 := by decide
          rcases hnoP (i + 1 + j - u.length) (by omega) with hne | h6
          · exact hne hPk.symm
          · -- the close-paren of the pattern itself would mean `j` is not smaller
            omega
        split
        · -- the whitespace-and-Tj check happened to succeed: recurse past it
          next htj =>
            have hAfter : (s.drop (i + 1)).drop (j + 1) = s.drop (i + j + 2) := by
              rw [List.drop_drop, show i + 1 + (j + 1) = i + j + 2 from by omega]
            rw [hAfter] at htj ⊢
            have ha2 : (s.drop (i + j + 2)).drop (wsRun (s.drop (i + j + 2)))
                = s.drop (i + j + 2 + wsRun (s.drop (i + j + 2))) := by
              rw [List.drop_drop]
            rw [ha2] at htj ⊢
            have hA : s.drop (i + j + 2 + wsRun (s.drop (i + j + 2)))
                = 'T' :: 'j' :: (s.drop (i + j + 2 + wsRun (s.drop (i + j + 2)))).drop 2 := by
              conv_lhs =>
                rw [← List.take_append_drop 2 (s.drop (i + j + 2 + wsRun (s.drop (i + j + 2)))),
                    htj]
              simp
            have hT : s[i + j + 2 + wsRun (s.drop (i + j + 2))]? = some 'T' := by
              have h0 : (s.drop (i + j + 2 + wsRun (s.drop (i + j + 2))))[0]? = some 'T' := by
                rw [hA]
                simp
              rw [List.getElem?_drop] at h0
              simpa using h0
            have hJ : s[i + j + 2 + wsRun (s.drop (i + j + 2)) + 1]? = some 'j' := by
              have h1 : (s.drop (i + j + 2 + wsRun (s.drop (i + j + 2))))[1]? = some 'j' := by
                rw [hA]
                simp
              rw [List.getElem?_drop] at h1
              simpa using h1
            have hOpen : s[u.length]? = some '(' := by
              have := hsub 0 (by omega)
              simpa using this
            have hz : i + j + 2 + wsRun (s.drop (i + j + 2)) + 2 ≤ u.length := by
              by_contra hgt
              push_neg at hgt
              rcases Nat.lt_or_ge (u.length - (i + j + 2)) (wsRun (s.drop (i + j + 2)))
                with hd | hd
              · rcases wsRun_ws (s.drop (i + j + 2)) (u.length - (i + j + 2)) hd with ⟨c, hc, hcws⟩
                rw [List.getElem?_drop,
                    show i + j + 2 + (u.length - (i + j + 2)) = u.length from by omega,
                    hOpen] at hc
                have : c = '(' := (Option.some.inj hc).symm
                rw [this] at hcws
                exact absurd hcws (by decide)
              · rcases Nat.eq_or_lt_of_le hd with hd1 | hd2
                · have : u.length = i + j + 2 + wsRun (s.drop (i + j + 2)) := by omega
                  rw [← this, hOpen] at hT
                  exact absurd (Option.some.inj hT) (by decide)
                · have : u.length = i + j + 2 + wsRun (s.drop (i + j + 2)) + 1 := by omega
                  rw [← this, hOpen] at hJ
                  exact absurd (Option.some.inj hJ) (by decide)
            have hdrop2 : (s.drop (i + j + 2 + wsRun (s.drop (i + j + 2)))).drop 2
                = s.drop (i + j + 2 + wsRun (s.drop (i + j + 2)) + 2) := by
              rw [List.drop_drop]
            rw [hdrop2]
            have hsdrop : s.drop (i + j + 2 + wsRun (s.drop (i + j + 2)) + 2)
                = u.drop (i + j + 2 + wsRun (s.drop (i + j + 2)) + 2) ++ helloPat ++ v := by
              set z := i + j + 2 + wsRun (s.drop (i + j + 2)) + 2 with hzdef
              conv_lhs => rw [hs]
              rw [List.append_assoc, drop_append_le _ _ hz, List.append_assoc]
            have hlen2 : (s.drop (i + j + 2 + wsRun (s.drop (i + j + 2)) + 2)).length ≤ fuel' := by
              rw [List.length_drop]
              omega
            rcases ih (s.drop (i + j + 2 + wsRun (s.drop (i + j + 2)) + 2))
                (u.drop (i + j + 2 + wsRun (s.drop (i + j + 2)) + 2)) v hlen2 hsdrop
              with ⟨cap, hmem, hinf⟩
            exact ⟨cap, List.mem_cons_of_mem _ hmem, hinf⟩
        · -- the check failed: the scanner advances past the open-paren
          next htj =>
            have hsdrop : s.drop (i + 1) = u.drop (i + 1) ++ helloPat ++ v := by
              conv_lhs => rw [hs]
              rw [List.append_assoc, drop_append_le _ _ (by omega), List.append_assoc]
            have hlen2 : (s.drop (i + 1)).length ≤ fuel' := by
              rw [List.length_drop]
              omega
            exact ih (s.drop (i + 1)) (u.drop (i + 1)) v hlen2 hsdrop

/-- The `join(' ')`, whitespace-collapse, camel-split and trim cleanup steps
all preserve a `Hello` occurrence contributed by some extracted part. -/
theorem cleanupChain (l : List (List Char)) (x : List Char) (hx : x ∈ l)
    (hinf : helloChars <:+: x) :
    helloChars <:+: jsTrimL (camelGo (collapseWs (joinSepSpace l))) := by
  have h1 := infix_joinSepSpace helloChars l x hx hinf
  have h2 : helloChars <:+: collapseWs (joinSepSpace l) :=
    collapseWsGo_infix 'H' ['e', 'l', 'l', 'o'] (by decide) (joinSepSpace l).length _ h1
  have h3 := camelGo_infix_hello (collapseWs (joinSepSpace l)).length _ (le_refl _) h2
  exact infix_jsTrimL 'H' 'o' ['e', 'l', 'l', 'o'] (by decide) (by decide) (by decide) _ h3

/-- C9: for every byte sequence whose latin1 decoding contains a
`BT (Hello) Tj ET` text block, the string returned by `extractTextFromPDF`
contains the literal substring `Hello`. -/
theorem C9_pdf_hello (data : List Nat) (h : helloBlockPat <:+: latin1Decode data) :
    helloChars <:+: (extractTextFromPDF data).data := by
  rcases h with ⟨pre, post, htext⟩
  rcases findBlocksGo_hello (latin1Decode data).length (latin1Decode data) pre post
      (le_refl _) htext.symm with ⟨blk, hblkmem, hblkinf⟩
  rcases hblkinf with ⟨bu, bv, hblkeq⟩
  rcases tjCapturesGo_hello blk.length blk bu bv (le_refl _) hblkeq.symm
    with ⟨cap, hcapmem, hcapinf⟩
  have hdec : helloChars <:+: decodePDFString cap := decodePDFString_infix cap hcapinf
  have hne : jsTrimL (decodePDFString cap) ≠ [] :=
    jsTrimL_ne_nil 'H' 'o' ['e', 'l', 'l', 'o'] (by decide) (by decide) (by decide) _ hdec
  have hbt : decodePDFString cap ∈ blockTexts blk := by
    unfold blockTexts
    apply List.mem_append_left
    exact List.mem_filter.mpr ⟨List.mem_map_of_mem _ hcapmem, by simpa using hne⟩
  have hext : decodePDFString cap ∈
      ((findBlocksGo (latin1Decode data).length (latin1Decode data)).map blockTexts).flatten
        ++ (streamBlocksGo (latin1Decode data).length (latin1Decode data)).filterMap
            streamText? :=
    List.mem_append_left _
      (List.mem_flatten.mpr ⟨blockTexts blk, List.mem_map_of_mem _ hblkmem, hbt⟩)
  have hres := cleanupChain _ _ hext hdec
  -- the aggressive ASCII fallback also keeps the occurrence
  have hmap : helloChars <:+: (latin1Decode data).map printableOrSpace := by
    rw [← htext, List.map_append, List.map_append,
        show List.map printableOrSpace helloBlockPat = helloBlockPat from by decide]
    exact (show helloChars <:+: helloBlockPat from by decide).trans
      ⟨pre.map printableOrSpace, post.map printableOrSpace, rfl⟩
  have hascii : helloChars <:+: jsTrimL (collapseWs ((latin1Decode data).map printableOrSpace)) := by
    have h2 : helloChars <:+: collapseWs ((latin1Decode data).map printableOrSpace) :=
      collapseWsGo_infix 'H' ['e', 'l', 'l', 'o'] (by decide)
        ((latin1Decode data).map printableOrSpace).length _ hmap
    exact infix_jsTrimL 'H' 'o' ['e', 'l', 'l', 'o'] (by decide) (by decide) (by decide) _ h2
  rcases splitWsGo_token 'H' ['e', 'l', 'l', 'o'] (by decide)
      (jsTrimL (collapseWs ((latin1Decode data).map printableOrSpace))).length _ hascii
    with ⟨tok, htokmem, htokinf⟩
  have h3len : 3 ≤ tok.length := le_trans (by decide) htokinf.length_le
  have htl := hasTwoLetters_hello tok htokinf
  have hmean : helloChars <:+:
      joinSepSpace ((splitWsRegex
          (jsTrimL (collapseWs ((latin1Decode data).map printableOrSpace)))).filter
        (fun w => decide (3 ≤ w.length) && hasTwoLetters w)) := by
    refine infix_joinSepSpace helloChars _ tok ?_ htokinf
    exact List.mem_filter.mpr
      ⟨htokmem, by simp only [Bool.and_eq_true, decide_eq_true_eq]; exact ⟨h3len, htl⟩⟩
  simp only [extractTextFromPDF]
  split
  · split
    · exact hmean
    · exact hres
  · exact hres

theorem C9_pdf_hello_witness :
    helloBlockPat <:+: latin1Decode c9bytes ∧
      helloChars <:+: (extractTextFromPDF c9bytes).data :=
  ⟨by decide, C9_pdf_hello c9bytes (by decide)⟩
